import Mathlib

/-!
# SilverLingua core: shallow embedding and verification

This file embeds the core data structures and algorithms of the SilverLingua
repository in Lean 4 and proves (or refutes) the frozen specification claims
about them.

Embedded components, translated from the Python source:

* `Tokenizer`, `Notion` — `core/atoms/tokenizer.py`, `core/molecules/notion.py`,
  `core/atoms/memory.py`.
* `Idearium` with `append` / `insert` / `replace` / `pop` / `remove` / `extend`
  and the `_trim` loop — `core/organisms/idearium.py`.  Python's `_trim` is a
  `while` loop that does not terminate on every input (a single non-persistent
  entry whose persistent companions already exceed the budget is re-truncated
  forever), so `trim` takes an explicit fuel argument and returns `none` when
  the fuel runs out; `some (.ok _)` / `some (.error _)` correspond to a normal
  return and a raised `ValueError` respectively.
* `ToolCallFunction`, `ToolCall`, `ToolCalls` and their `concat` merge —
  `core/atoms/tool/util.py`.  Pydantic extra ("out-of-band") fields are not
  modelled: all fragments considered here carry none, which in the source makes
  `self.__pydantic_extra__ == other.__pydantic_extra__` hold (both empty) and
  selects the final `return` of `ToolCall.concat`.
* The agent's tool-call validation loop and `_use_tools` —
  `core/templates/agent.py`.  External collaborators (``json.loads``,
  ``json.dumps`` / pydantic serialization, the tool callables, the provider
  role table) enter as explicit function parameters.

CPython detail made explicit by the embedding: `_trim` takes its working index
from `next(iter(non_persistent_indices))` (equivalently, from the first
iteration of `for i in non_persistent_indices`), the head of a Python `set`'s
iteration order.  That order follows the set's hash-table layout, not the
numeric order of the elements — `set(range(9)) - {0, 1, 2, 3, 4, 5, 6}`
iterates as `[8, 7]` — and the Python language specification leaves it
unspecified.  The embedding therefore abstracts the iteration head as an
explicit choice function `pick : Finset Nat → Nat` threaded through `trim` and
the mutating operations; the only property Python guarantees is that the
chosen element belongs to the set.  `minPick` realizes the lowest-index
choice, `cpyPick98` the observed CPython choice on the set above.  Theorems
quantified over every membership-respecting `pick` hold in particular for
CPython's actual iteration order.
-/

namespace SilverLingua

/-- Tokenizer contract (`core/atoms/tokenizer.py`): a pair of callables
`encode : str -> list[int]` and `decode : list[int] -> str`. -/
structure Tokenizer where
  encode : String → List Nat
  decode : List Nat → String

/-- `Notion` (`core/molecules/notion.py` over `core/atoms/memory.py`):
a role-tagged unit of conversation text with a persistence flag. -/
structure Notion where
  content : String
  role : String
  persistent : Bool
deriving DecidableEq, Repr, Inhabited

/-- `Idearium` state (`core/organisms/idearium.py`): ordered notions, the
cached tokenized forms, the set of persistent indices, and the budget.
The tokenizer travels with the state, as in the source. -/
structure Idearium where
  tokenizer : Tokenizer
  maxTokens : Nat
  notions : List Notion
  tokenizedNotions : List (List Nat)
  persistentIndices : Finset Nat

/-- Python list slice `t[:k]` for an integer bound `k` (the `_trim` truncation
uses a bound that can be negative): a nonnegative bound keeps a prefix, a
negative bound drops `-k` elements from the end, clamping at the empty list. -/
def pyTake {α : Type} (t : List α) (k : Int) : List α :=
  if 0 ≤ k then t.take k.toNat else t.take ((t.length : Int) + k).toNat

/-- Python `list.insert(idx, a)` for a nonnegative index: inserts at `idx`,
clamping to an append when `idx` exceeds the length. -/
def pyInsertList {α : Type} (l : List α) (idx : Nat) (a : α) : List α :=
  l.take idx ++ a :: l.drop idx

/-- The lowest-index choice of an element of a set of indices (with a default
for the empty set, which no reachable query passes): the choice function under
which set iteration would yield the smallest element first. -/
def minPick (s : Finset Nat) : Nat :=
  if h : s.Nonempty then s.min' h else 0

/-- The head of CPython's iteration order on the non-persistent index set of
the nine-entry counterexample state: `iter(set(range(9)) - {0, 1, 2, 3, 4, 5,
6})` yields `8` first (CPython stores a small nonnegative int `n` at hash-table
slot `n mod table_size`, so this set iterates as `[8, 7]`); on every other set,
the lowest-index choice. -/
def cpyPick98 (s : Finset Nat) : Nat :=
  if s = {7, 8} then 8 else minPick s

namespace Idearium

/-- `total_tokens`: the sum of the cached token-sequence lengths. -/
def totalTokens (i : Idearium) : Nat :=
  (i.tokenizedNotions.map List.length).sum

/-- `_non_persistent_indices`: `set(range(len(notions))) - persistent_indices`. -/
def nonPersistentIndices (i : Idearium) : Finset Nat :=
  Finset.range i.notions.length \ i.persistentIndices

/-- The state change of `pop(index)` (`idearium.py` lines 143–155): remove the
notion and its tokenization, discard the index from the persistent set, then
shift the recorded indices greater than it down by one. -/
def popRaw (i : Idearium) (idx : Nat) : Idearium :=
  { i with
    notions := i.notions.eraseIdx idx
    tokenizedNotions := i.tokenizedNotions.eraseIdx idx
    persistentIndices :=
      (i.persistentIndices.erase idx).image (fun j => if idx < j then j - 1 else j) }

/-- The state change of `replace(index, notion)` before its trailing `_trim`
(`idearium.py` lines 157–168): overwrite the notion, re-encode its content into
the cache, and update persistent membership at `index` to match the flag. -/
def replaceRaw (i : Idearium) (idx : Nat) (n : Notion) : Idearium :=
  { i with
    notions := i.notions.set idx n
    tokenizedNotions := i.tokenizedNotions.set idx (i.tokenizer.encode n.content)
    persistentIndices :=
      if n.persistent then insert idx i.persistentIndices
      else i.persistentIndices.erase idx }

/-- `ValueError` message raised by `_trim` when every notion is persistent and
the budget is still exceeded. -/
def budgetMsg : String :=
  "Persistent notions exceed max_tokens. Reduce the content or increase max_tokens."

/-- `_trim` (`idearium.py` lines 180–219), fueled.  One loop iteration:
if the budget is respected, return; with exactly one non-persistent index,
truncate that notion's token sequence to `tokens[: max_tokens - (total_tokens -
len(tokens))]` (Python slice semantics), decode it, and `replace` (which re-runs
`_trim`, after which the loop returns); with no non-persistent index, raise;
otherwise pop a non-persistent index and loop.  Both the truncation index
(`single_index = next(iter(non_persistent_indices))`) and the evicted index
(the first iteration of `for i in non_persistent_indices`) are the head of the
set's CPython iteration order, which depends on the hash-table layout and need
not be the smallest element; the embedding abstracts it as the choice function
`pick`, of which Python guarantees only that the result is an element of the
set. -/
def trim (pick : Finset Nat → Nat) : Nat → Idearium → Option (Except String Idearium)
  | 0, _ => none
  | fuel + 1, i =>
    if i.maxTokens < i.totalTokens then
      if _h1 : i.nonPersistentIndices.card = 1 then
        let idx := pick i.nonPersistentIndices
        let tn := i.tokenizedNotions.getD idx []
        let pfx := pyTake tn
          ((i.maxTokens : Int) - ((i.totalTokens : Int) - (tn.length : Int)))
        let old := i.notions.getD idx default
        trim pick fuel (i.replaceRaw idx
          { content := i.tokenizer.decode pfx, role := old.role,
            persistent := old.persistent })
      else if _h2 : i.nonPersistentIndices = ∅ then
        some (.error budgetMsg)
      else
        trim pick fuel (i.popRaw (pick i.nonPersistentIndices))
    else some (.ok i)

/-- `replace(index, notion)`: overwrite then `_trim`.  An out-of-range index
raises `IndexError` in Python (`self.notions[index] = notion`). -/
def replaceOp (pick : Finset Nat → Nat) (fuel : Nat) (i : Idearium) (idx : Nat) (n : Notion) :
    Option (Except String Idearium) :=
  if idx < i.notions.length then trim pick fuel (i.replaceRaw idx n)
  else some (.error "IndexError")

/-- The state change of `append`'s non-coalescing path before its `_trim`:
append the notion and its encoding, and record the new index when persistent
(`persistent_indices.add(len(self.notions) - 1)` after the list append). -/
def appendRaw (i : Idearium) (n : Notion) : Idearium :=
  { i with
    notions := i.notions ++ [n]
    tokenizedNotions := i.tokenizedNotions ++ [i.tokenizer.encode n.content]
    persistentIndices :=
      if n.persistent then insert i.notions.length i.persistentIndices
      else i.persistentIndices }

/-- `append(notion)` (`idearium.py` lines 79–112): when the last stored notion
has the same role and persistence, `replace` the last position with the
content-concatenated notion (that `replace` runs `_trim`; `append` then returns);
otherwise append as new and `_trim`. -/
def appendOp (pick : Finset Nat → Nat) (fuel : Nat) (i : Idearium) (n : Notion) :
    Option (Except String Idearium) :=
  match i.notions.getLast? with
  | some last =>
    if last.role = n.role ∧ last.persistent = n.persistent then
      replaceOp pick fuel i (i.notions.length - 1)
        { content := last.content ++ n.content, role := n.role,
          persistent := n.persistent }
    else trim pick fuel (i.appendRaw n)
  | none => trim pick fuel (i.appendRaw n)

/-- The state change of `insert(index, notion)` before its `_trim`
(`idearium.py` lines 122–136): Python's `list.insert` clamps an out-of-range
index to an append, while the persistent-index shift and the recording of the
new persistent index use the raw index. -/
def insertRaw (i : Idearium) (idx : Nat) (n : Notion) : Idearium :=
  { i with
    notions := pyInsertList i.notions idx n
    tokenizedNotions := pyInsertList i.tokenizedNotions idx (i.tokenizer.encode n.content)
    persistentIndices :=
      (fun P => if n.persistent then insert idx P else P)
        (i.persistentIndices.image (fun j => if idx ≤ j then j + 1 else j)) }

/-- `insert(index, notion)`: insert then `_trim`. -/
def insertOp (pick : Finset Nat → Nat) (fuel : Nat) (i : Idearium) (idx : Nat) (n : Notion) :
    Option (Except String Idearium) :=
  trim pick fuel (i.insertRaw idx n)

/-- `pop(index)`: remove and return the notion; no `_trim` runs.  An
out-of-range index raises `IndexError`. -/
def popOp (i : Idearium) (idx : Nat) : Except String (Idearium × Notion) :=
  if h : idx < i.notions.length then .ok (i.popRaw idx, i.notions.get ⟨idx, h⟩)
  else .error "IndexError"

/-- `remove(notion)`: `pop` at the index of the first occurrence;
`list.index` raises `ValueError` when the notion is absent. -/
def removeOp (i : Idearium) (n : Notion) : Except String (Idearium × Notion) :=
  match i.notions.findIdx? (fun m => m == n) with
  | some idx => i.popOp idx
  | none => .error "ValueError"

/-- `extend(notions)`: `append` each notion in order; the first raised error
aborts the remainder. -/
def extendOp (pick : Finset Nat → Nat) (fuel : Nat) (i : Idearium) :
    List Notion → Option (Except String Idearium)
  | [] => some (.ok i)
  | n :: rest =>
    match appendOp pick fuel i n with
    | none => none
    | some (.error e) => some (.error e)
    | some (.ok i') => extendOp pick fuel i' rest

end Idearium

/-- `Idearium.validate_notion` (`idearium.py` lines 54–63): empty content or a
tokenization longer than the budget raises `ValueError`. -/
def validateNotion (T : Tokenizer) (maxTokens : Nat) (n : Notion) :
    Except String (List Nat) :=
  if n.content = "" then .error "Notion content cannot be empty."
  else
    let tn := T.encode n.content
    if maxTokens < tn.length then .error "Notion exceeds maximum token length"
    else .ok tn

/-- The `validate_notions` model validator: validate each notion in order. -/
def validateAll (T : Tokenizer) (maxTokens : Nat) : List Notion → Except String Unit
  | [] => .ok ()
  | n :: rest =>
    match validateNotion T maxTokens n with
    | .error e => .error e
    | .ok _ => validateAll T maxTokens rest

/-- `Idearium.__init__` with the default keyword arguments: encode every
notion, run the model validator, and start with an empty persistent-index set.
No `_trim` runs at construction. -/
def mkIdearium (T : Tokenizer) (maxTokens : Nat) (ns : List Notion) :
    Except String Idearium :=
  match validateAll T maxTokens ns with
  | .error e => .error e
  | .ok _ =>
    .ok { tokenizer := T, maxTokens := maxTokens, notions := ns,
          tokenizedNotions := ns.map (fun n => T.encode n.content),
          persistentIndices := ∅ }

/-- The mutating Buffer operations, for statements quantifying over
interleavings of operations. -/
inductive BufOp : Type
  | append (n : Notion)
  | insert (idx : Nat) (n : Notion)
  | replace (idx : Nat) (n : Notion)
  | pop (idx : Nat)
  | remove (n : Notion)
  | extend (ns : List Notion)

/-- Run one Buffer operation, keeping the resulting state. -/
def applyOp (pick : Finset Nat → Nat) (fuel : Nat) (op : BufOp) (i : Idearium) :
    Option (Except String Idearium) :=
  match op with
  | .append n => i.appendOp pick fuel n
  | .insert idx n => i.insertOp pick fuel idx n
  | .replace idx n => i.replaceOp pick fuel idx n
  | .pop idx => some ((i.popOp idx).map Prod.fst)
  | .remove n => some ((i.removeOp n).map Prod.fst)
  | .extend ns => i.extendOp pick fuel ns

/-- A sequence of Buffer operations, each returning normally. -/
inductive Steps (pick : Finset Nat → Nat) (fuel : Nat) :
    Idearium → List BufOp → Idearium → Prop
  | nil (i : Idearium) : Steps pick fuel i [] i
  | cons {i i' i'' : Idearium} {op : BufOp} {ops : List BufOp} :
      applyOp pick fuel op i = some (.ok i') → Steps pick fuel i' ops i'' →
      Steps pick fuel i (op :: ops) i''

/-- In-bounds side condition for an operation: `insert` within the current
length (Python clamps the list insert but shifts the recorded indices by the
raw index, so out-of-range inserts are the exception). -/
def BufOp.inBounds : BufOp → Idearium → Prop
  | .insert idx _, i => idx ≤ i.notions.length
  | _, _ => True

/-- A sequence of Buffer operations, each in bounds and returning normally. -/
inductive StepsB (pick : Finset Nat → Nat) (fuel : Nat) :
    Idearium → List BufOp → Idearium → Prop
  | nil (i : Idearium) : StepsB pick fuel i [] i
  | cons {i i' i'' : Idearium} {op : BufOp} {ops : List BufOp} :
      op.inBounds i → applyOp pick fuel op i = some (.ok i') →
      StepsB pick fuel i' ops i'' →
      StepsB pick fuel i (op :: ops) i''

/-- Every recorded persistent index refers to a position holding a notion whose
persistent flag is true. -/
def Pinv (i : Idearium) : Prop :=
  ∀ j ∈ i.persistentIndices,
    j < i.notions.length ∧ (i.notions.getD j default).persistent = true

/-! ## Tool-call fragments and the merge algorithm (`core/atoms/tool/util.py`) -/

/-- `ToolCallFunction`: name and raw JSON-text arguments of one fragment. -/
structure ToolCallFunction where
  name : String
  arguments : String
deriving DecidableEq, Repr, Inhabited

/-- `ToolCall` (a Call-Fragment): `id : str` (never `None` after construction),
`index : Optional[int]`, and the function payload.  Pydantic extra fields are
not modelled (taken absent on both sides of every merge). -/
structure ToolCall where
  function : ToolCallFunction
  id : String
  index : Option Int
deriving DecidableEq, Repr, Inhabited

/-- Python truthiness of an `Optional[int]`: `None` and `0` are falsy. -/
def idxTruthy : Option Int → Bool
  | none => false
  | some n => n ≠ 0

/-- `(self.index or other.index) or None` from `ToolCall.concat`. -/
def idxOr (x y : Option Int) : Option Int :=
  let t := if idxTruthy x then x else y
  if idxTruthy t then t else none

/-- `ToolCall.concat` (`util.py` lines 47–111) for fragments without extra
fields (`self_extra == other_extra`, both empty, selecting the final return):
concatenate `name` and `arguments`, keep `self.id` unless it is falsy
(`self.id or other.id`), and combine the indices Python-style. -/
def ToolCall.concat (a b : ToolCall) : ToolCall :=
  { function :=
      { name := a.function.name ++ b.function.name
        arguments := a.function.arguments ++ b.function.arguments }
    id := if a.id = "" then b.id else a.id
    index := idxOr a.index b.index }

/-- The match test of `ToolCalls.concat`:
`self_tool_call.id == tool_call.id or self_tool_call.index == tool_call.index`.
Note `None == None` is true in Python, so two absent indices match. -/
def tcMatch (v u : ToolCall) : Bool :=
  v.id == u.id || v.index == u.index

/-- One iteration of the outer loop of `ToolCalls.concat`: merge the incoming
fragment into every accumulated fragment it matches (the inner loop has no
`break`), or append it unchanged when nothing matches. -/
def mergeStep (acc : List ToolCall) (u : ToolCall) : List ToolCall :=
  if acc.any (fun v => tcMatch v u) then
    acc.map (fun v => if tcMatch v u then v.concat u else v)
  else acc ++ [u]

/-- `ToolCalls`: a list of Call-Fragments. -/
structure ToolCalls where
  list : List ToolCall
deriving DecidableEq, Repr, Inhabited

/-- `ToolCalls.concat` (`util.py` lines 121–138): start from a copy of
`self.list` and fold every fragment of `other.list` into it. -/
def ToolCalls.concat (a b : ToolCalls) : ToolCalls :=
  ⟨b.list.foldl mergeStep a.list⟩

/-- `ToolCall` construction through pydantic (`util.py` lines 36–45): the `id`
field has `default_factory=lambda: str(uuid4())` and a `mode="before"`
validator substituting a fresh UUID string for `None`.  `idField` is the raw
input: `none` for an absent field, `some none` for an explicit `None`/JSON
null, `some (some s)` for a supplied string; `freshUUID` stands for the
`str(uuid4())` the constructor would draw. -/
def mkToolCall (f : ToolCallFunction) (idField : Option (Option String))
    (index : Option Int) (freshUUID : String) : ToolCall :=
  { function := f
    id := match idField with
      | some (some s) => s
      | _ => freshUUID
    index := index }

/-! ## Agent tool processing (`core/templates/agent.py`) -/

/-- Python `str.startswith`, computed on the character lists. -/
def pyStartsWith (s p : String) : Bool :=
  p.data.isPrefixOf s.data

/-- One pass of the id-validation loop of `Agent._process_tool_calls`
(lines 288–295): `for i, tool_call in enumerate(tool_calls.list): if not
tool_call.id.startswith("call_"): tool_calls.list.pop(i)`.  Each loop step
consumes the element at position `k` of the *current* list (the enumerate
counter always equals the list iterator's last position, because `pop` does not
move the iterator), so popping skips the element that slides into the popped
slot.  The loop runs at most `l.length` iterations (the counter grows by one
each step and the list never lengthens), so the structural fuel below never
runs out when started at `l.length + 1`. -/
def validateLoopAux : Nat → List ToolCall → Nat → List ToolCall
  | 0, l, _ => l
  | fuel + 1, l, k =>
    if h : k < l.length then
      if pyStartsWith (l.get ⟨k, h⟩).id "call_" then validateLoopAux fuel l (k + 1)
      else validateLoopAux fuel (l.eraseIdx k) (k + 1)
    else l

/-- The id-validation loop, with enough fuel for its worst case. -/
def validateLoop (l : List ToolCall) (k : Nat) : List ToolCall :=
  validateLoopAux (l.length + 1) l k

/-- The fragment filtering performed by `Agent._process_tool_calls` before it
appends the tool-call notion and executes the remaining fragments; returns
`none` when nothing survives (the "No tool calls found" branch, which logs an
error and yields no tool response instead of aborting). -/
def processToolCallsFilter (tcs : ToolCalls) : Option ToolCalls :=
  let filtered := validateLoop tcs.list 0
  if filtered.isEmpty then none else some ⟨filtered⟩

/-- A registered tool as the agent sees it: a name and the wrapped callable.
`impl` stands for `json.dumps(self.function(**kwargs))` of `Tool.__call__`:
it maps the parsed keyword-argument object to the serialized result. -/
structure AgentTool where
  name : String
  impl : List (String × String) → String

/-- `Agent._find_tool`: first registered tool with the given name. -/
def findTool (tools : List AgentTool) (name : String) : Option AgentTool :=
  tools.find? (fun t => t.name == name)

/-- A response entry produced by `Agent._use_tools` for one fragment, before
serialization into a `Notion`. -/
inductive ToolOutcome : Type
  | response (toolCallId name result : String)
  | notFound (toolCallId : String)
deriving DecidableEq, Repr

/-- `Agent._use_tools` (`agent.py` lines 101–143), with the external JSON
parser abstracted as `parse` (`none` models a raised `json.JSONDecodeError`).
For each fragment in order: look the tool up by the fragment's function name;
if found, parse the raw arguments — `contextlib.suppress(json.JSONDecodeError)`
leaves the argument object empty when parsing raises — and invoke the tool;
if not found, synthesize the error response
`{"tool_call_id": ..., "content": "Tool not found", "name": "error"}`.
Every fragment yields exactly one outcome and no exception escapes. -/
def useTools (parse : String → Option (List (String × String)))
    (tools : List AgentTool) (tcs : ToolCalls) : List ToolOutcome :=
  tcs.list.map (fun tc =>
    match findTool tools tc.function.name with
    | some t =>
      let args := (parse tc.function.arguments).getD []
      .response tc.id tc.function.name (t.impl args)
    | none => .notFound tc.id)

/-! ## Spec-side reference definitions (for refinement claims) -/

/-- Modelled from the spec, §4.1 step 2: truncate the entry at `idx` to the
prefix of length `max_tokens - (total_tokens - len(that sequence))` of its
token sequence (keep the earliest tokens, drop the tail) and decode that
prefix back to text; nothing else changes. -/
def truncResult (i : Idearium) (idx : Nat) : Idearium :=
  let tn := i.tokenizedNotions.getD idx []
  let keepLen := i.maxTokens - (i.totalTokens - tn.length)
  let old := i.notions.getD idx default
  { i with
    notions := i.notions.set idx
      { content := i.tokenizer.decode (tn.take keepLen), role := old.role,
        persistent := old.persistent }
    tokenizedNotions := i.tokenizedNotions.set idx (tn.take keepLen) }

/-- Modelled from the spec, §4.1 trim algorithm (reference semantics the code
is compared against), with the eviction step parameterized by the choice of
non-persistent index: loop while the budget is exceeded; with exactly one
non-persistent position, truncate that entry's token sequence to a prefix
(`truncResult`; the position is the unique one, written as the set's minimum)
and stop; with none, fail with the budget-exhaustion error; otherwise evict
the chosen non-persistent entry and repeat.  The spec's own text says to evict
"the single oldest (lowest-index)" entry: that reading is the instance
`specTrim minPick`, which the C3 counterexample separates from the code's
behavior under CPython's observed iteration order. -/
def specTrim (pick : Finset Nat → Nat) : Nat → Idearium → Option (Except String Idearium)
  | 0, _ => none
  | fuel + 1, i =>
    if i.totalTokens ≤ i.maxTokens then some (.ok i)
    else if h1 : i.nonPersistentIndices.card = 1 then
      some (.ok (truncResult i (i.nonPersistentIndices.min'
        (Finset.card_pos.mp (by rw [h1]; exact Nat.one_pos)))))
    else if _h2 : i.nonPersistentIndices = ∅ then
      some (.error Idearium.budgetMsg)
    else
      specTrim pick fuel (i.popRaw (pick i.nonPersistentIndices))

/-- The tokens held at the recorded persistent indices (indices beyond the
list contribute nothing). -/
def presTokens (i : Idearium) : Nat :=
  i.persistentIndices.sum (fun j => (i.tokenizedNotions.getD j []).length)

/-- Well-formedness of a Buffer state for the trim refinement: the token cache
parallels the notion list; recorded persistent indices are in bounds and agree
exactly with the persistence flags; re-encoding a decoded prefix of any cached
token sequence reproduces it (the spec's tokenizer round-trip, on the
sequences the Buffer holds); and the persistent entries alone fit the budget. -/
def TrimHyps (i : Idearium) : Prop :=
  i.tokenizedNotions.length = i.notions.length ∧
  (∀ j ∈ i.persistentIndices, j < i.notions.length) ∧
  (∀ j, j < i.notions.length →
    (j ∈ i.persistentIndices ↔ (i.notions.getD j default).persistent = true)) ∧
  (∀ tn ∈ i.tokenizedNotions, ∀ k, k ≤ tn.length →
    i.tokenizer.encode (i.tokenizer.decode (tn.take k)) = tn.take k) ∧
  presTokens i ≤ i.maxTokens

/-- Modelled from the spec, §4.2 merge: the combined fragment's `name` and
`arguments` are the old followed by the new, and its id is the old id if
present, else the new id. -/
def specCombine (old new : ToolCall) : ToolCall :=
  { function :=
      { name := old.function.name ++ new.function.name
        arguments := old.function.arguments ++ new.function.arguments }
    id := if old.id ≠ "" then old.id else new.id
    index := idxOr old.index new.index }

/-- Amended matching rule for the merge (the code's actual rule): an
accumulated fragment matches the incoming one when its id equals the incoming
id or its index equals the incoming index, regardless of whether the ids are
present. -/
def specMatches (v u : ToolCall) : Prop :=
  v.id = u.id ∨ v.index = u.index

instance (v u : ToolCall) : Decidable (specMatches v u) := by
  unfold specMatches; infer_instance

/-- Amended spec merge of one incoming fragment: when no accumulated fragment
matches, append it unchanged; otherwise combine it into every matching
accumulated fragment, in place. -/
def specMergeInto (acc : List ToolCall) (u : ToolCall) : List ToolCall :=
  if ∀ v ∈ acc, ¬ specMatches v u then acc ++ [u]
  else acc.map (fun v => if specMatches v u then specCombine v u else v)

instance : DecidablePred (fun p : List ToolCall × ToolCall =>
    ∀ v ∈ p.1, ¬ specMatches v p.2) := by
  intro p; infer_instance

/-- Amended spec merge of two Call-Sets: process each incoming fragment in
order, left to right. -/
def specMerge (a b : List ToolCall) : List ToolCall :=
  b.foldl specMergeInto a

/-! ## Coherence notions for the fragment-merge associativity analysis -/

/-- A fragment is anchored in a pool of original fragments when it carries the
id and index of one of them (merging same-id fragments preserves both). -/
def Anchored (pool : List ToolCall) (u : ToolCall) : Prop :=
  ∃ w ∈ pool, u.id = w.id ∧ u.index = w.index

/-- Stable-id coherence of a fragment pool: every id is present, every index
is a truthy integer (`some n`, `n ≠ 0` — Python-falsy indices mutate under the
merge), and index equality coincides with id equality across the pool. -/
def CoherentPool (pool : List ToolCall) : Prop :=
  (∀ w ∈ pool, w.id ≠ "") ∧
  (∀ w ∈ pool, idxTruthy w.index = true) ∧
  (∀ w ∈ pool, ∀ w' ∈ pool, (w.id = w'.id ↔ w.index = w'.index))

/-- A well-formed merge accumulator: every fragment anchored in the pool, ids
pairwise distinct. -/
def GoodAcc (pool : List ToolCall) (X : List ToolCall) : Prop :=
  (∀ v ∈ X, Anchored pool v) ∧ (X.map ToolCall.id).Nodup

/-- Combine `u` into every accumulated fragment carrying `u`'s id. -/
def mapMerge (u : ToolCall) (Z : List ToolCall) : List ToolCall :=
  Z.map (fun v => if v.id = u.id then v.concat u else v)

/-! ## A concrete tokenizer for witnesses: one token per character. -/

/-- A character-level tokenizer: each character is one token (its code point).
This is the shape of the mock tokenizer used by the repository's tests. -/
def charTok : Tokenizer :=
  { encode := fun s => s.data.map Char.toNat
    decode := fun ts => String.mk (ts.map Char.ofNat) }

/-- An empty Idearium over a tokenizer and budget. -/
def emptyIdearium (T : Tokenizer) (maxTokens : Nat) : Idearium :=
  { tokenizer := T, maxTokens := maxTokens, notions := [],
    tokenizedNotions := [], persistentIndices := ∅ }

/-- A nine-entry Buffer state over budget: seven persistent one-token entries
recorded at indices 0–6, followed by two non-persistent two-token entries at
indices 7 ("hh") and 8 ("ii"), with `max_tokens = 10` and 11 tokens held.  Its
non-persistent index set is `set(range(9)) - {0, 1, 2, 3, 4, 5, 6}`, whose
CPython iteration order is `[8, 7]`. -/
def nineEntryState : Idearium :=
  { tokenizer := charTok, maxTokens := 10,
    notions :=
      [⟨"a", "SYSTEM", true⟩, ⟨"b", "SYSTEM", true⟩, ⟨"c", "SYSTEM", true⟩,
       ⟨"d", "SYSTEM", true⟩, ⟨"e", "SYSTEM", true⟩, ⟨"f", "SYSTEM", true⟩,
       ⟨"g", "SYSTEM", true⟩, ⟨"hh", "HUMAN", false⟩, ⟨"ii", "AI", false⟩]
    tokenizedNotions :=
      [[97], [98], [99], [100], [101], [102], [103], [104, 104], [105, 105]]
    persistentIndices := {0, 1, 2, 3, 4, 5, 6} }

/-- The notions of an operation's result, when it returned normally
(for decidable statements about concrete runs). -/
def okNotions : Option (Except String Idearium) → Option (List Notion)
  | some (.ok i) => some i.notions
  | _ => none

/-- The full observable Buffer state of a normal result: notions, cached
tokenizations, and the persistent-index set. -/
def okState : Option (Except String Idearium) →
    Option (List Notion × List (List Nat) × Finset Nat)
  | some (.ok i) => some (i.notions, i.tokenizedNotions, i.persistentIndices)
  | _ => none

/-- Whether a result is the explicit budget-exhaustion error. -/
def isBudgetError : Option (Except String Idearium) → Bool
  | some (.error e) => e == Idearium.budgetMsg
  | _ => false

/-! # Theorems -/

/-- The lowest-index choice respects the membership contract of set
iteration. -/
theorem minPick_mem (s : Finset Nat) (h : s.Nonempty) : minPick s ∈ s := by
  rw [minPick, dif_pos h]
  exact s.min'_mem h

/-- The observed CPython choice respects the membership contract of set
iteration. -/
theorem cpyPick98_mem (s : Finset Nat) (h : s.Nonempty) : cpyPick98 s ∈ s := by
  rw [cpyPick98]
  by_cases h78 : s = {7, 8}
  · rw [if_pos h78, h78]
    decide
  · rw [if_neg h78]
    exact minPick_mem s h

/-- When `_trim` returns normally, the result is within the token budget:
the loop only exits through its guard, for every choice of working index. -/
theorem trim_ok_budget (pick : Finset Nat → Nat) : ∀ (fuel : Nat) (i i' : Idearium),
    Idearium.trim pick fuel i = some (.ok i') → i'.totalTokens ≤ i'.maxTokens := by
  intro fuel
  induction fuel with
  | zero => intro i i' h; simp [Idearium.trim] at h
  | succ n ih =>
    intro i i' h
    rw [Idearium.trim] at h
    by_cases hb : i.maxTokens < i.totalTokens
    · rw [if_pos hb] at h
      by_cases h1 : i.nonPersistentIndices.card = 1
      · rw [dif_pos h1] at h
        exact ih _ _ h
      · rw [dif_neg h1] at h
        by_cases h2 : i.nonPersistentIndices = ∅
        · rw [dif_pos h2] at h
          simp at h
        · rw [dif_neg h2] at h
          exact ih _ _ h
    · rw [if_neg hb] at h
      simp only [Option.some.injEq, Except.ok.injEq] at h
      subst h
      omega

/-- `pop` removes one cached tokenization, so the token total cannot grow. -/
theorem popRaw_totalTokens_le (i : Idearium) (idx : Nat) :
    (i.popRaw idx).totalTokens ≤ i.totalTokens := by
  unfold Idearium.popRaw Idearium.totalTokens
  exact ((i.tokenizedNotions.eraseIdx_sublist idx).map List.length).sum_le_sum
    (by intro x _; exact Nat.zero_le x)

/-- `pop` leaves the budget unchanged. -/
theorem popRaw_maxTokens (i : Idearium) (idx : Nat) :
    (i.popRaw idx).maxTokens = i.maxTokens := rfl

/-- `extend` preserves the budget invariant: each `append` re-runs `_trim`. -/
theorem extendOp_ok_budget (pick : Finset Nat → Nat) :
    ∀ (ns : List Notion) (fuel : Nat) (i i' : Idearium),
    i.totalTokens ≤ i.maxTokens → Idearium.extendOp pick fuel i ns = some (.ok i') →
    i'.totalTokens ≤ i'.maxTokens := by
  intro ns
  induction ns with
  | nil =>
    intro fuel i i' hb h
    simp only [Idearium.extendOp, Option.some.injEq, Except.ok.injEq] at h
    subst h; exact hb
  | cons n rest ih =>
    intro fuel i i' hb h
    simp only [Idearium.extendOp] at h
    rcases hap : Idearium.appendOp pick fuel i n with _ | e
    · rw [hap] at h; simp at h
    · rcases e with e | j
      · rw [hap] at h; simp at h
      · rw [hap] at h
        have hj : j.totalTokens ≤ j.maxTokens := by
          unfold Idearium.appendOp at hap
          rcases hlast : i.notions.getLast? with _ | last
          · rw [hlast] at hap; exact trim_ok_budget _ _ _ _ hap
          · rw [hlast] at hap
            dsimp only at hap
            by_cases hc : last.role = n.role ∧ last.persistent = n.persistent
            · rw [if_pos hc] at hap
              unfold Idearium.replaceOp at hap
              by_cases hidx : i.notions.length - 1 < i.notions.length
              · rw [if_pos hidx] at hap; exact trim_ok_budget _ _ _ _ hap
              · rw [if_neg hidx] at hap; simp at hap
            · rw [if_neg hc] at hap; exact trim_ok_budget _ _ _ _ hap
        exact ih fuel j i' hj h

/-- Any Buffer operation that returns normally preserves the budget
invariant. -/
theorem applyOp_ok_budget (pick : Finset Nat → Nat) (fuel : Nat) (op : BufOp)
    (i i' : Idearium) (hb : i.totalTokens ≤ i.maxTokens)
    (h : applyOp pick fuel op i = some (.ok i')) :
    i'.totalTokens ≤ i'.maxTokens := by
  cases op with
  | append n =>
    simp only [applyOp] at h
    unfold Idearium.appendOp at h
    rcases hlast : i.notions.getLast? with _ | last
    · rw [hlast] at h; exact trim_ok_budget _ _ _ _ h
    · rw [hlast] at h
      dsimp only at h
      by_cases hc : last.role = n.role ∧ last.persistent = n.persistent
      · rw [if_pos hc] at h
        unfold Idearium.replaceOp at h
        by_cases hidx : i.notions.length - 1 < i.notions.length
        · rw [if_pos hidx] at h; exact trim_ok_budget _ _ _ _ h
        · rw [if_neg hidx] at h; simp at h
      · rw [if_neg hc] at h; exact trim_ok_budget _ _ _ _ h
  | insert idx n =>
    simp only [applyOp] at h
    unfold Idearium.insertOp at h
    exact trim_ok_budget _ _ _ _ h
  | replace idx n =>
    simp only [applyOp] at h
    unfold Idearium.replaceOp at h
    by_cases hidx : idx < i.notions.length
    · rw [if_pos hidx] at h; exact trim_ok_budget _ _ _ _ h
    · rw [if_neg hidx] at h; simp at h
  | pop idx =>
    simp only [applyOp] at h
    unfold Idearium.popOp at h
    by_cases hidx : idx < i.notions.length
    · rw [dif_pos hidx] at h
      simp only [Except.map, Option.some.injEq, Except.ok.injEq] at h
      subst h
      calc (i.popRaw idx).totalTokens ≤ i.totalTokens := popRaw_totalTokens_le i idx
        _ ≤ i.maxTokens := hb
        _ = (i.popRaw idx).maxTokens := (popRaw_maxTokens i idx).symm
    · rw [dif_neg hidx] at h
      simp [Except.map] at h
  | remove n =>
    simp only [applyOp] at h
    unfold Idearium.removeOp at h
    rcases hf : i.notions.findIdx? (fun m => m == n) with _ | idx
    · rw [hf] at h; simp [Except.map] at h
    · rw [hf] at h
      dsimp only at h
      unfold Idearium.popOp at h
      by_cases hidx : idx < i.notions.length
      · rw [dif_pos hidx] at h
        simp only [Except.map, Option.some.injEq, Except.ok.injEq] at h
        subst h
        calc (i.popRaw idx).totalTokens ≤ i.totalTokens := popRaw_totalTokens_le i idx
          _ ≤ i.maxTokens := hb
          _ = (i.popRaw idx).maxTokens := (popRaw_maxTokens i idx).symm
      · rw [dif_neg hidx] at h
        simp [Except.map] at h
  | extend ns =>
    simp only [applyOp] at h
    exact extendOp_ok_budget pick ns fuel i i' hb h

/-- `_trim` raises the budget-exhaustion `ValueError` when the budget is
exceeded and no non-persistent index remains, whatever the index choice
(none is queried on this path). -/
theorem trim_budget_error (pick : Finset Nat → Nat) (fuel : Nat) (i : Idearium)
    (hb : i.maxTokens < i.totalTokens) (hnp : i.nonPersistentIndices = ∅) :
    Idearium.trim pick (fuel + 1) i = some (.error Idearium.budgetMsg) := by
  rw [Idearium.trim, if_pos hb, dif_neg (by rw [hnp]; simp), dif_pos hnp]

/-- C1.  Starting from a Buffer within its token budget, every sequence of
mutating operations (append, insert, replace, extend, pop, remove) that
returns normally leaves the sum of the cached token-sequence lengths at most
`max_tokens` — for every choice of `_trim`'s working index, in particular
CPython's actual set-iteration order; and when the budget is exceeded while no
non-persistent entry remains, `_trim` — and hence the mutating operation that
invoked it, shown for `insert` — fails with the explicit budget-exhaustion
`ValueError`, surfaced to the caller. -/
theorem c1_budget_invariant :
    (∀ (pick : Finset Nat → Nat) (fuel : Nat) (i : Idearium) (ops : List BufOp)
        (i' : Idearium),
        Steps pick fuel i ops i' → i.totalTokens ≤ i.maxTokens →
        i'.totalTokens ≤ i'.maxTokens) ∧
    (∀ (pick : Finset Nat → Nat) (fuel : Nat) (i : Idearium),
        i.maxTokens < i.totalTokens → i.nonPersistentIndices = ∅ →
        Idearium.trim pick (fuel + 1) i = some (.error Idearium.budgetMsg)) ∧
    (∀ (pick : Finset Nat → Nat) (fuel idx : Nat) (n : Notion) (i : Idearium),
        (i.insertRaw idx n).maxTokens < (i.insertRaw idx n).totalTokens →
        (i.insertRaw idx n).nonPersistentIndices = ∅ →
        applyOp pick (fuel + 1) (.insert idx n) i =
          some (.error Idearium.budgetMsg)) := by
  refine ⟨?_, ?_, ?_⟩
  · intro pick fuel i ops i' h
    induction h with
    | nil i => exact id
    | cons hstep _ ih =>
      intro hb
      exact ih (applyOp_ok_budget _ _ _ _ _ hb hstep)
  · intro pick fuel i hb hnp
    exact trim_budget_error pick fuel i hb hnp
  · intro pick fuel idx n i hb hnp
    simp only [applyOp, Idearium.insertOp]
    exact trim_budget_error pick fuel _ hb hnp

/-- Witness for C1 at concrete inputs: a one-`append` trace on an empty
buffer with budget 5 stays within budget, and a buffer whose single
(persistent) notion exceeds the budget makes `_trim` raise. -/
theorem c1_budget_invariant_witness :
    (Steps minPick 5 ⟨charTok, 5, [], [], ∅⟩ [BufOp.append ⟨"abc", "HUMAN", false⟩]
        ⟨charTok, 5, [⟨"abc", "HUMAN", false⟩], [[97, 98, 99]], ∅⟩ ∧
      Idearium.totalTokens ⟨charTok, 5, [], [], ∅⟩ ≤ 5 ∧
      Idearium.totalTokens
        ⟨charTok, 5, [⟨"abc", "HUMAN", false⟩], [[97, 98, 99]], ∅⟩ ≤ 5) ∧
    (5 < Idearium.totalTokens
        ⟨charTok, 5, [⟨"123456", "SYSTEM", true⟩], [[49, 50, 51, 52, 53, 54]], {0}⟩ ∧
      Idearium.nonPersistentIndices
        ⟨charTok, 5, [⟨"123456", "SYSTEM", true⟩], [[49, 50, 51, 52, 53, 54]], {0}⟩ = ∅ ∧
      Idearium.trim minPick 3
        ⟨charTok, 5, [⟨"123456", "SYSTEM", true⟩], [[49, 50, 51, 52, 53, 54]], {0}⟩ =
        some (.error Idearium.budgetMsg)) := by
  have hstep : Steps minPick 5 ⟨charTok, 5, [], [], ∅⟩
      [BufOp.append ⟨"abc", "HUMAN", false⟩]
      ⟨charTok, 5, [⟨"abc", "HUMAN", false⟩], [[97, 98, 99]], ∅⟩ :=
    Steps.cons rfl (Steps.nil _)
  refine ⟨⟨hstep, by decide, ?_⟩, ⟨by decide, by decide, ?_⟩⟩
  · exact c1_budget_invariant.1 minPick 5 _ _ _ hstep (by decide)
  · exact c1_budget_invariant.2.1 minPick 2 _ (by decide) (by decide)

/-- C2 counterexample: appending a single non-persistent Entry of 8 tokens to
an empty Buffer with `max_tokens = 5` is *not* rejected — `append` never calls
`validate_notion` — and the Buffer is changed: the operation returns normally
with the entry truncated to 5 tokens. -/
theorem c2_counterexample :
    5 < (charTok.encode "12345678").length ∧
    okState (applyOp minPick 10 (.append ⟨"12345678", "HUMAN", false⟩)
        (emptyIdearium charTok 5)) =
      some ([⟨"12345", "HUMAN", false⟩], [[49, 50, 51, 52, 53]], (∅ : Finset Nat)) := by
  constructor
  · decide
  · decide

/-- `_trim` on a buffer holding exactly one notion, non-persistent and over
budget: the token sequence is truncated to the first `max_tokens` tokens and
decoded back to text. -/
theorem trim_single_oversized (pick : Finset Nat → Nat)
    (hpick : ∀ s : Finset Nat, s.Nonempty → pick s ∈ s)
    (T : Tokenizer) (maxT fuel : Nat) (n : Notion)
    (tn : List Nat) (hover : maxT < tn.length) (hp : n.persistent = false)
    (hfaith : T.encode (T.decode (tn.take maxT)) = tn.take maxT) :
    Idearium.trim pick (fuel + 2) ⟨T, maxT, [n], [tn], ∅⟩ =
      some (.ok ⟨T, maxT, [⟨T.decode (tn.take maxT), n.role, false⟩],
        [tn.take maxT], ∅⟩) := by
  have htot : Idearium.totalTokens ⟨T, maxT, [n], [tn], ∅⟩ = tn.length := by
    simp [Idearium.totalTokens]
  have hnp : Idearium.nonPersistentIndices ⟨T, maxT, [n], [tn], ∅⟩ = {0} := by
    simp [Idearium.nonPersistentIndices, Finset.range_one]
  rw [Idearium.trim, if_pos (by rw [htot]; exact hover),
    dif_pos (by rw [hnp]; simp)]
  have hpk : pick (Idearium.nonPersistentIndices ⟨T, maxT, [n], [tn], ∅⟩) = 0 := by
    rw [hnp]
    have hmem : pick ({0} : Finset Nat) ∈ ({0} : Finset Nat) :=
      hpick _ (Finset.singleton_nonempty 0)
    simpa using hmem
  simp only [hpk]
  have hgetD : (⟨T, maxT, [n], [tn], ∅⟩ : Idearium).tokenizedNotions.getD 0 [] = tn := rfl
  have hgetDn : (⟨T, maxT, [n], [tn], ∅⟩ : Idearium).notions.getD 0 default = n := rfl
  rw [hgetD, hgetDn, htot]
  have hslice : pyTake tn ((maxT : Int) - ((tn.length : Int) - (tn.length : Int))) =
      tn.take maxT := by
    have hb : ((maxT : Int) - ((tn.length : Int) - (tn.length : Int))) = (maxT : Int) := by
      ring
    rw [hb, pyTake, if_pos (by positivity)]
    simp
  rw [hslice]
  have hrepl : Idearium.replaceRaw ⟨T, maxT, [n], [tn], ∅⟩ 0
      { content := T.decode (tn.take maxT), role := n.role, persistent := n.persistent } =
      ⟨T, maxT, [⟨T.decode (tn.take maxT), n.role, false⟩], [tn.take maxT], ∅⟩ := by
    rw [Idearium.replaceRaw]
    simp only [hp]
    simp [hfaith]
  rw [hrepl, Idearium.trim]
  have htot2 : Idearium.totalTokens
      ⟨T, maxT, [⟨T.decode (tn.take maxT), n.role, false⟩], [tn.take maxT], ∅⟩ =
      maxT := by
    simp [Idearium.totalTokens]
    omega
  rw [if_neg (by rw [htot2]; simp)]

/-- Python's set-iteration choice on a singleton set is forced: whatever the
hash-table layout, the only element is chosen. -/
theorem pick_singleton (pick : Finset Nat → Nat)
    (hpick : ∀ s : Finset Nat, s.Nonempty → pick s ∈ s) (a : Nat) :
    pick ({a} : Finset Nat) = a := by
  have hmem : pick ({a} : Finset Nat) ∈ ({a} : Finset Nat) :=
    hpick _ (Finset.singleton_nonempty a)
  simpa using hmem

/-- C2 amended.  An Entry whose own token length exceeds `max_tokens` is
rejected with an error only at Idearium *construction* (`validate_notion`,
run by the model validator); the insertion operations do not validate.  In
particular `append`ing such a non-persistent Entry to an empty Buffer returns
normally with the Entry truncated to its first `max_tokens` tokens (given that
re-encoding that decoded prefix reproduces it; the truncation holds for every
membership-respecting choice of `_trim`'s working index, the singleton
non-persistent set forcing the choice). -/
theorem c2_amended :
    (∀ (T : Tokenizer) (maxT : Nat) (ns : List Notion) (n : Notion),
        n ∈ ns → maxT < (T.encode n.content).length →
        ∃ e, mkIdearium T maxT ns = .error e) ∧
    (∀ (pick : Finset Nat → Nat), (∀ s : Finset Nat, s.Nonempty → pick s ∈ s) →
      ∀ (T : Tokenizer) (maxT fuel : Nat) (n : Notion),
        maxT < (T.encode n.content).length → n.persistent = false →
        T.encode (T.decode ((T.encode n.content).take maxT)) =
          (T.encode n.content).take maxT →
        Idearium.appendOp pick (fuel + 2) (emptyIdearium T maxT) n =
          some (.ok ⟨T, maxT,
            [⟨T.decode ((T.encode n.content).take maxT), n.role, false⟩],
            [(T.encode n.content).take maxT], ∅⟩)) := by
  constructor
  · intro T maxT ns
    induction ns with
    | nil => intro n hmem; simp at hmem
    | cons m rest ih =>
      intro n hmem hover
      rcases List.mem_cons.mp hmem with hEq | hmem'
      · subst hEq
        by_cases hempty : n.content = ""
        · exact ⟨"Notion content cannot be empty.", by
            simp [mkIdearium, validateAll, validateNotion, hempty]⟩
        · refine ⟨"Notion exceeds maximum token length", ?_⟩
          simp only [mkIdearium, validateAll, validateNotion, if_neg hempty,
            if_pos hover]
      · rcases hv : validateNotion T maxT m with e | tn
        · exact ⟨e, by simp [mkIdearium, validateAll, hv]⟩
        · rcases ih n hmem' hover with ⟨e, he⟩
          rcases hva : validateAll T maxT rest with e' | u
          · exact ⟨e', by simp [mkIdearium, validateAll, hv, hva]⟩
          · simp [mkIdearium, hva] at he
  · intro pick hpick T maxT fuel n hover hp hfaith
    have hlast : (emptyIdearium T maxT).notions.getLast? = none := rfl
    rw [Idearium.appendOp, hlast]
    have hraw : (emptyIdearium T maxT).appendRaw n =
        ⟨T, maxT, [n], [T.encode n.content], ∅⟩ := by
      rw [Idearium.appendRaw]
      simp [emptyIdearium, hp]
    rw [hraw]
    exact trim_single_oversized pick hpick T maxT fuel n (T.encode n.content)
      hover hp hfaith

/-- Witness for C2's amended theorem at concrete inputs: constructing with an
oversized notion fails, and appending one to an empty buffer truncates it. -/
theorem c2_amended_witness :
    ((⟨"12345678", "HUMAN", false⟩ : Notion) ∈ [(⟨"12345678", "HUMAN", false⟩ : Notion)] ∧
      5 < (charTok.encode "12345678").length ∧
      ∃ e, mkIdearium charTok 5 [⟨"12345678", "HUMAN", false⟩] = .error e) ∧
    (charTok.encode (charTok.decode ((charTok.encode "12345678").take 5)) =
        (charTok.encode "12345678").take 5 ∧
      Idearium.appendOp minPick 10 (emptyIdearium charTok 5)
          ⟨"12345678", "HUMAN", false⟩ =
        some (.ok ⟨charTok, 5,
          [⟨charTok.decode ((charTok.encode "12345678").take 5), "HUMAN", false⟩],
          [(charTok.encode "12345678").take 5], ∅⟩)) := by
  refine ⟨⟨by decide, by decide, ?_⟩, ⟨by decide, ?_⟩⟩
  · exact c2_amended.1 charTok 5 [⟨"12345678", "HUMAN", false⟩]
      ⟨"12345678", "HUMAN", false⟩ (by decide) (by decide)
  · exact c2_amended.2 minPick minPick_mem charTok 5 8 ⟨"12345678", "HUMAN", false⟩
      (by decide) (by decide) (by decide)


/-- Setting the last position of a non-empty list replaces its last element. -/
theorem list_set_last {α : Type} : ∀ (l : List α) (a : α), l ≠ [] →
    l.set (l.length - 1) a = l.dropLast ++ [a] := by
  intro l
  induction l with
  | nil => intro a h; exact absurd rfl h
  | cons x tl ih =>
    intro a _
    cases tl with
    | nil => rfl
    | cons y tl' =>
      have h1 : (x :: y :: tl').length - 1 = (y :: tl').length - 1 + 1 := by
        simp
      rw [h1, List.set_cons_succ]
      rw [ih a (by simp)]
      rfl

/-- `_trim` never lengthens the notion list: truncation replaces in place and
eviction removes, whichever index is chosen. -/
theorem trim_ok_length (pick : Finset Nat → Nat) : ∀ (fuel : Nat) (i i' : Idearium),
    Idearium.trim pick fuel i = some (.ok i') →
    i'.notions.length ≤ i.notions.length := by
  intro fuel
  induction fuel with
  | zero => intro i i' h; simp [Idearium.trim] at h
  | succ n ih =>
    intro i i' h
    rw [Idearium.trim] at h
    by_cases hb : i.maxTokens < i.totalTokens
    · rw [if_pos hb] at h
      by_cases h1 : i.nonPersistentIndices.card = 1
      · rw [dif_pos h1] at h
        have := ih _ _ h
        simpa [Idearium.replaceRaw] using this
      · rw [dif_neg h1] at h
        by_cases h2 : i.nonPersistentIndices = ∅
        · rw [dif_pos h2] at h; simp at h
        · rw [dif_neg h2] at h
          have := ih _ _ h
          calc i'.notions.length ≤ _ := this
            _ ≤ i.notions.length := by
              simp only [Idearium.popRaw]
              exact (i.notions.eraseIdx_sublist _).length_le
    · rw [if_neg hb] at h
      simp only [Option.some.injEq, Except.ok.injEq] at h
      subst h
      exact le_refl _

/-- C6.  When the last stored Entry matches the incoming one on role and
persistence, `append` replaces it with the single merged Entry whose content is
the exact concatenation old-then-new (shown with the budget respected, so the
subsequent trim is the identity); and under any `append` that returns normally
the Buffer's length grows by at most one.  Both parts hold for every choice of
`_trim`'s working index. -/
theorem c6_append_coalescing :
    (∀ (pick : Finset Nat → Nat) (fuel : Nat) (i : Idearium) (n last : Notion),
        i.notions.getLast? = some last →
        last.role = n.role → last.persistent = n.persistent →
        (i.replaceRaw (i.notions.length - 1)
            ⟨last.content ++ n.content, n.role, n.persistent⟩).totalTokens ≤
          i.maxTokens →
        Idearium.appendOp pick (fuel + 1) i n =
          some (.ok (i.replaceRaw (i.notions.length - 1)
            ⟨last.content ++ n.content, n.role, n.persistent⟩)) ∧
        (i.replaceRaw (i.notions.length - 1)
            ⟨last.content ++ n.content, n.role, n.persistent⟩).notions =
          i.notions.dropLast ++ [⟨last.content ++ n.content, n.role, n.persistent⟩] ∧
        (i.replaceRaw (i.notions.length - 1)
            ⟨last.content ++ n.content, n.role, n.persistent⟩).notions.length =
          i.notions.length) ∧
    (∀ (pick : Finset Nat → Nat) (fuel : Nat) (i i' : Idearium) (n : Notion),
        Idearium.appendOp pick fuel i n = some (.ok i') →
        i'.notions.length ≤ i.notions.length + 1) := by
  constructor
  · intro pick fuel i n last hlast hrole hpers hfit
    have hne : i.notions ≠ [] := by
      intro hnil
      rw [hnil] at hlast
      simp at hlast
    have hlen : 0 < i.notions.length := List.length_pos.mpr hne
    refine ⟨?_, ?_, ?_⟩
    · rw [Idearium.appendOp, hlast]
      dsimp only
      rw [if_pos ⟨hrole, hpers⟩, Idearium.replaceOp, if_pos (by omega),
        Idearium.trim, if_neg (by simp only [not_lt]; exact hfit)]
    · simp only [Idearium.replaceRaw]
      exact list_set_last i.notions _ hne
    · simp [Idearium.replaceRaw]
  · intro pick fuel i i' n h
    rw [Idearium.appendOp] at h
    rcases hlast : i.notions.getLast? with _ | last
    · rw [hlast] at h
      dsimp only at h
      have := trim_ok_length _ _ _ _ h
      simpa [Idearium.appendRaw] using this
    · rw [hlast] at h
      dsimp only at h
      by_cases hc : last.role = n.role ∧ last.persistent = n.persistent
      · rw [if_pos hc, Idearium.replaceOp] at h
        by_cases hidx : i.notions.length - 1 < i.notions.length
        · rw [if_pos hidx] at h
          have := trim_ok_length _ _ _ _ h
          simp only [Idearium.replaceRaw, List.length_set] at this
          omega
        · rw [if_neg hidx] at h; simp at h
      · rw [if_neg hc] at h
        have := trim_ok_length _ _ _ _ h
        simpa [Idearium.appendRaw] using this

/-- Witness for C6 at a concrete input: appending " World" after "Hello"
(same role, same persistence) coalesces into one entry "Hello World". -/
theorem c6_append_coalescing_witness :
    (Idearium.notions ⟨charTok, 20, [⟨"Hello", "HUMAN", false⟩],
          [[72, 101, 108, 108, 111]], ∅⟩).getLast? = some ⟨"Hello", "HUMAN", false⟩ ∧
    (Idearium.replaceRaw ⟨charTok, 20, [⟨"Hello", "HUMAN", false⟩],
          [[72, 101, 108, 108, 111]], ∅⟩ 0
        ⟨"Hello" ++ " World", "HUMAN", false⟩).totalTokens ≤ 20 ∧
    Idearium.appendOp minPick 7 ⟨charTok, 20, [⟨"Hello", "HUMAN", false⟩],
        [[72, 101, 108, 108, 111]], ∅⟩ ⟨" World", "HUMAN", false⟩ =
      some (.ok (Idearium.replaceRaw ⟨charTok, 20, [⟨"Hello", "HUMAN", false⟩],
        [[72, 101, 108, 108, 111]], ∅⟩ 0 ⟨"Hello" ++ " World", "HUMAN", false⟩)) := by
  have h := c6_append_coalescing.1 minPick 6
    ⟨charTok, 20, [⟨"Hello", "HUMAN", false⟩], [[72, 101, 108, 108, 111]], ∅⟩
    ⟨" World", "HUMAN", false⟩ ⟨"Hello", "HUMAN", false⟩ rfl rfl rfl (by decide)
  exact ⟨rfl, by decide, h.1⟩

/-- An in-bounds Python insert lengthens the list by one. -/
theorem pyInsertList_length {α : Type} (l : List α) (idx : Nat) (a : α)
    (hle : idx ≤ l.length) : (pyInsertList l idx a).length = l.length + 1 := by
  simp [pyInsertList]
  omega

/-- The inserted element sits at the insertion index. -/
theorem pyInsertList_getElem?_self {α : Type} (l : List α) (idx : Nat) (a : α)
    (hle : idx ≤ l.length) : (pyInsertList l idx a)[idx]? = some a := by
  unfold pyInsertList
  rw [List.getElem?_append_right (by simp)]
  simp [Nat.min_eq_left hle]

/-- Positions before the insertion index are unchanged. -/
theorem pyInsertList_getElem?_lt {α : Type} (l : List α) (idx j : Nat) (a : α)
    (hle : idx ≤ l.length) (hj : j < idx) :
    (pyInsertList l idx a)[j]? = l[j]? := by
  unfold pyInsertList
  rw [List.getElem?_append_left (by simp; omega)]
  exact List.getElem?_take_of_lt hj

/-- Positions after the insertion index shift up by one. -/
theorem pyInsertList_getElem?_gt {α : Type} (l : List α) (idx j : Nat) (a : α)
    (hle : idx ≤ l.length) (hj : idx < j) :
    (pyInsertList l idx a)[j]? = l[j - 1]? := by
  unfold pyInsertList
  rw [List.getElem?_append_right (by simp; omega)]
  have hlen : (l.take idx).length = idx := by simp; omega
  rw [hlen]
  have hsub : j - idx = (j - idx - 1) + 1 := by omega
  rw [hsub, List.getElem?_cons_succ, List.getElem?_drop]
  congr 1
  omega

/-- `replace` at an in-bounds index preserves the persistent-index invariant. -/
theorem Pinv_replaceRaw (i : Idearium) (idx : Nat) (n : Notion)
    (hP : Pinv i) (hidx : idx < i.notions.length) : Pinv (i.replaceRaw idx n) := by
  intro j hj
  simp only [Idearium.replaceRaw] at hj ⊢
  by_cases hp : n.persistent = true
  · rw [if_pos hp] at hj
    rcases Finset.mem_insert.mp hj with hEq | hmem
    · subst hEq
      refine ⟨by simpa using hidx, ?_⟩
      rw [List.getD_eq_getElem?_getD, List.getElem?_set_self hidx]
      simpa using hp
    · rcases hP j hmem with ⟨hlt, hflag⟩
      refine ⟨by simpa using hlt, ?_⟩
      by_cases hji : idx = j
      · subst hji
        rw [List.getD_eq_getElem?_getD, List.getElem?_set_self hidx]
        simpa using hp
      · rw [List.getD_eq_getElem?_getD, List.getElem?_set_ne hji,
          ← List.getD_eq_getElem?_getD]
        exact hflag
  · rw [if_neg hp] at hj
    have hj' := Finset.mem_erase.mp hj
    rcases hP j hj'.2 with ⟨hlt, hflag⟩
    refine ⟨by simpa using hlt, ?_⟩
    rw [List.getD_eq_getElem?_getD, List.getElem?_set_ne (Ne.symm hj'.1),
      ← List.getD_eq_getElem?_getD]
    exact hflag

/-- `pop` preserves the persistent-index invariant: the popped index is
discarded and the higher recorded indices shift down with the list. -/
theorem Pinv_popRaw (i : Idearium) (idx : Nat) (hP : Pinv i) :
    Pinv (i.popRaw idx) := by
  intro j hj
  simp only [Idearium.popRaw] at hj ⊢
  rcases Finset.mem_image.mp hj with ⟨k, hk, hshift⟩
  have hk' := Finset.mem_erase.mp hk
  rcases hP k hk'.2 with ⟨hlt, hflag⟩
  have hlen := List.length_eraseIdx i.notions idx
  by_cases hki : idx < k
  · rw [if_pos hki] at hshift
    subst hshift
    constructor
    · rw [hlen]
      split <;> omega
    · rw [List.getD_eq_getElem?_getD, List.getElem?_eraseIdx_of_ge _ _ _ (by omega)]
      have hkk : k - 1 + 1 = k := by omega
      rw [hkk, ← List.getD_eq_getElem?_getD]
      exact hflag
  · rw [if_neg hki] at hshift
    subst hshift
    have hklt : k < idx := by
      rcases Nat.lt_or_ge k idx with h | h
      · exact h
      · exact absurd (Nat.le_antisymm (by omega) h) hk'.1
    constructor
    · rw [hlen]
      split <;> omega
    · rw [List.getD_eq_getElem?_getD, List.getElem?_eraseIdx_of_lt _ _ _ hklt,
        ← List.getD_eq_getElem?_getD]
      exact hflag

/-- `append`'s raw push preserves the persistent-index invariant. -/
theorem Pinv_appendRaw (i : Idearium) (n : Notion) (hP : Pinv i) :
    Pinv (i.appendRaw n) := by
  intro j hj
  simp only [Idearium.appendRaw] at hj ⊢
  have hold : ∀ j ∈ i.persistentIndices,
      j < (i.notions ++ [n]).length ∧
      ((i.notions ++ [n]).getD j default).persistent = true := by
    intro j hmem
    rcases hP j hmem with ⟨hlt, hflag⟩
    refine ⟨by simp; omega, ?_⟩
    rw [List.getD_eq_getElem?_getD, List.getElem?_append_left hlt,
      ← List.getD_eq_getElem?_getD]
    exact hflag
  by_cases hp : n.persistent = true
  · rw [if_pos hp] at hj
    rcases Finset.mem_insert.mp hj with hEq | hmem
    · subst hEq
      constructor
      · simp
      · rw [List.getD_eq_getElem?_getD, List.getElem?_append_right (le_refl _)]
        simpa using hp
    · exact hold j hmem
  · rw [if_neg hp] at hj
    exact hold j hj

/-- An in-bounds `insert` preserves the persistent-index invariant: recorded
indices at or above the insertion point shift up with the list, and the new
index is recorded only for a persistent notion. -/
theorem Pinv_insertRaw (i : Idearium) (idx : Nat) (n : Notion)
    (hP : Pinv i) (hle : idx ≤ i.notions.length) : Pinv (i.insertRaw idx n) := by
  intro j hj
  simp only [Idearium.insertRaw] at hj ⊢
  have hlen := pyInsertList_length i.notions idx n hle
  have hshifted : ∀ j ∈ i.persistentIndices.image (fun k => if idx ≤ k then k + 1 else k),
      j < (pyInsertList i.notions idx n).length ∧
      ((pyInsertList i.notions idx n).getD j default).persistent = true := by
    intro j hj
    rcases Finset.mem_image.mp hj with ⟨k, hk, hshift⟩
    rcases hP k hk with ⟨hlt, hflag⟩
    by_cases hki : idx ≤ k
    · rw [if_pos hki] at hshift
      subst hshift
      refine ⟨by omega, ?_⟩
      rw [List.getD_eq_getElem?_getD,
        pyInsertList_getElem?_gt i.notions idx (k + 1) n hle (by omega)]
      simpa [← List.getD_eq_getElem?_getD] using hflag
    · rw [if_neg hki] at hshift
      subst hshift
      refine ⟨by omega, ?_⟩
      rw [List.getD_eq_getElem?_getD,
        pyInsertList_getElem?_lt i.notions idx k n hle (by omega),
        ← List.getD_eq_getElem?_getD]
      exact hflag
  by_cases hp : n.persistent = true
  · rw [if_pos hp] at hj
    rcases Finset.mem_insert.mp hj with hEq | hmem
    · subst hEq
      refine ⟨by omega, ?_⟩
      rw [List.getD_eq_getElem?_getD, pyInsertList_getElem?_self i.notions j n hle]
      simpa using hp
    · exact hshifted j hmem
  · rw [if_neg hp] at hj
    exact hshifted j hj

/-- `_trim` preserves the persistent-index invariant, for every
membership-respecting choice of working index. -/
theorem Pinv_trim (pick : Finset Nat → Nat)
    (hpick : ∀ s : Finset Nat, s.Nonempty → pick s ∈ s) :
    ∀ (fuel : Nat) (i i' : Idearium),
    Idearium.trim pick fuel i = some (.ok i') → Pinv i → Pinv i' := by
  intro fuel
  induction fuel with
  | zero => intro i i' h; simp [Idearium.trim] at h
  | succ m ih =>
    intro i i' h hP
    rw [Idearium.trim] at h
    by_cases hb : i.maxTokens < i.totalTokens
    · rw [if_pos hb] at h
      by_cases h1 : i.nonPersistentIndices.card = 1
      · rw [dif_pos h1] at h
        refine ih _ _ h (Pinv_replaceRaw _ _ _ hP ?_)
        have hmem := hpick i.nonPersistentIndices
          (Finset.card_pos.mp (by rw [h1]; exact Nat.one_pos))
        have := Finset.mem_sdiff.mp hmem
        exact Finset.mem_range.mp this.1
      · rw [dif_neg h1] at h
        by_cases h2 : i.nonPersistentIndices = ∅
        · rw [dif_pos h2] at h; simp at h
        · rw [dif_neg h2] at h
          exact ih _ _ h (Pinv_popRaw _ _ hP)
    · rw [if_neg hb] at h
      simp only [Option.some.injEq, Except.ok.injEq] at h
      subst h
      exact hP

/-- `append` preserves the persistent-index invariant. -/
theorem appendOp_ok_Pinv (pick : Finset Nat → Nat)
    (hpick : ∀ s : Finset Nat, s.Nonempty → pick s ∈ s)
    (fuel : Nat) (i i' : Idearium) (n : Notion)
    (hP : Pinv i) (h : Idearium.appendOp pick fuel i n = some (.ok i')) : Pinv i' := by
  rw [Idearium.appendOp] at h
  rcases hlast : i.notions.getLast? with _ | last
  · rw [hlast] at h
    dsimp only at h
    exact Pinv_trim pick hpick _ _ _ h (Pinv_appendRaw _ _ hP)
  · rw [hlast] at h
    dsimp only at h
    by_cases hc : last.role = n.role ∧ last.persistent = n.persistent
    · rw [if_pos hc, Idearium.replaceOp] at h
      by_cases hidx : i.notions.length - 1 < i.notions.length
      · rw [if_pos hidx] at h
        exact Pinv_trim pick hpick _ _ _ h (Pinv_replaceRaw _ _ _ hP hidx)
      · rw [if_neg hidx] at h; simp at h
    · rw [if_neg hc] at h
      exact Pinv_trim pick hpick _ _ _ h (Pinv_appendRaw _ _ hP)

/-- `extend` preserves the persistent-index invariant. -/
theorem extendOp_ok_Pinv (pick : Finset Nat → Nat)
    (hpick : ∀ s : Finset Nat, s.Nonempty → pick s ∈ s) :
    ∀ (ns : List Notion) (fuel : Nat) (i i' : Idearium),
    Pinv i → Idearium.extendOp pick fuel i ns = some (.ok i') → Pinv i' := by
  intro ns
  induction ns with
  | nil =>
    intro fuel i i' hP h
    simp only [Idearium.extendOp, Option.some.injEq, Except.ok.injEq] at h
    subst h; exact hP
  | cons n rest ih =>
    intro fuel i i' hP h
    simp only [Idearium.extendOp] at h
    rcases hap : Idearium.appendOp pick fuel i n with _ | e
    · rw [hap] at h; simp at h
    · rcases e with e | j
      · rw [hap] at h; simp at h
      · rw [hap] at h
        exact ih fuel j i' (appendOp_ok_Pinv pick hpick fuel i j n hP hap) h

/-- Every in-bounds Buffer operation that returns normally preserves the
persistent-index invariant. -/
theorem applyOp_ok_Pinv (pick : Finset Nat → Nat)
    (hpick : ∀ s : Finset Nat, s.Nonempty → pick s ∈ s)
    (fuel : Nat) (op : BufOp) (i i' : Idearium)
    (hP : Pinv i) (hbnd : op.inBounds i)
    (h : applyOp pick fuel op i = some (.ok i')) : Pinv i' := by
  cases op with
  | append n =>
    simp only [applyOp] at h
    exact appendOp_ok_Pinv pick hpick fuel i i' n hP h
  | insert idx n =>
    simp only [applyOp] at h
    unfold Idearium.insertOp at h
    exact Pinv_trim pick hpick _ _ _ h (Pinv_insertRaw _ _ _ hP hbnd)
  | replace idx n =>
    simp only [applyOp] at h
    unfold Idearium.replaceOp at h
    by_cases hidx : idx < i.notions.length
    · rw [if_pos hidx] at h
      exact Pinv_trim pick hpick _ _ _ h (Pinv_replaceRaw _ _ _ hP hidx)
    · rw [if_neg hidx] at h; simp at h
  | pop idx =>
    simp only [applyOp] at h
    unfold Idearium.popOp at h
    by_cases hidx : idx < i.notions.length
    · rw [dif_pos hidx] at h
      simp only [Except.map, Option.some.injEq, Except.ok.injEq] at h
      subst h
      exact Pinv_popRaw _ _ hP
    · rw [dif_neg hidx] at h
      simp [Except.map] at h
  | remove n =>
    simp only [applyOp] at h
    unfold Idearium.removeOp at h
    rcases hf : i.notions.findIdx? (fun m => m == n) with _ | idx
    · rw [hf] at h; simp [Except.map] at h
    · rw [hf] at h
      dsimp only at h
      unfold Idearium.popOp at h
      by_cases hidx : idx < i.notions.length
      · rw [dif_pos hidx] at h
        simp only [Except.map, Option.some.injEq, Except.ok.injEq] at h
        subst h
        exact Pinv_popRaw _ _ hP
      · rw [dif_neg hidx] at h
        simp [Except.map] at h
  | extend ns =>
    simp only [applyOp] at h
    exact extendOp_ok_Pinv pick hpick ns fuel i i' hP h

/-- C5 counterexample: Python's `list.insert` clamps an out-of-range index (an
insert at 5 into a 1-entry Buffer appends at position 1), but the persistent
set records the raw index 5, which afterwards refers to no position at all —
the recorded-index invariant fails after this single legal call. -/
theorem c5_counterexample :
    applyOp minPick 10 (.insert 5 ⟨"ab", "SYSTEM", true⟩)
        ⟨charTok, 20, [⟨"xy", "HUMAN", false⟩], [[120, 121]], ∅⟩ =
      some (.ok ⟨charTok, 20, [⟨"xy", "HUMAN", false⟩, ⟨"ab", "SYSTEM", true⟩],
        [[120, 121], [97, 98]], {5}⟩) ∧
    ¬ Pinv ⟨charTok, 20, [⟨"xy", "HUMAN", false⟩, ⟨"ab", "SYSTEM", true⟩],
        [[120, 121], [97, 98]], {5}⟩ := by
  constructor
  · rfl
  · intro hP
    rcases hP 5 (by decide) with ⟨hlt, _⟩
    simp at hlt

/-- C5 amended.  After any interleaving of Buffer operations that return
normally and whose `insert` indices are within bounds at the time of the call,
every index recorded in the persistent-index set refers to a position holding
an Entry whose persistent flag is true — for every membership-respecting
choice of `_trim`'s working index. -/
theorem c5_amended (pick : Finset Nat → Nat)
    (hpick : ∀ s : Finset Nat, s.Nonempty → pick s ∈ s)
    (fuel : Nat) (i : Idearium) (ops : List BufOp) (i' : Idearium)
    (hsteps : StepsB pick fuel i ops i') (hP : Pinv i) : Pinv i' := by
  induction hsteps with
  | nil i => exact hP
  | cons hbnd hstep _ ih =>
    exact ih (applyOp_ok_Pinv pick hpick _ _ _ _ hP hbnd hstep)

/-- Witness for C5 at a concrete trace: append a persistent system notion,
insert a human notion at index 1 (in bounds), pop it again; the recorded
persistent index 0 still holds the persistent notion. -/
theorem c5_amended_witness :
    StepsB minPick 10 (emptyIdearium charTok 20)
      [.append ⟨"sys", "SYSTEM", true⟩, .insert 1 ⟨"hi", "HUMAN", false⟩, .pop 1]
      ⟨charTok, 20, [⟨"sys", "SYSTEM", true⟩], [[115, 121, 115]], {0}⟩ ∧
    Pinv (emptyIdearium charTok 20) ∧
    Pinv ⟨charTok, 20, [⟨"sys", "SYSTEM", true⟩], [[115, 121, 115]], {0}⟩ := by
  have h1 : StepsB minPick 10
      (⟨charTok, 20, [⟨"sys", "SYSTEM", true⟩, ⟨"hi", "HUMAN", false⟩],
        [[115, 121, 115], [104, 105]], {0}⟩ : Idearium)
      [.pop 1]
      ⟨charTok, 20, [⟨"sys", "SYSTEM", true⟩], [[115, 121, 115]], {0}⟩ :=
    StepsB.cons trivial rfl (StepsB.nil _)
  have h2 : StepsB minPick 10
      (⟨charTok, 20, [⟨"sys", "SYSTEM", true⟩], [[115, 121, 115]], {0}⟩ : Idearium)
      [.insert 1 ⟨"hi", "HUMAN", false⟩, .pop 1]
      ⟨charTok, 20, [⟨"sys", "SYSTEM", true⟩], [[115, 121, 115]], {0}⟩ :=
    StepsB.cons (le_refl 1) rfl h1
  have hsteps : StepsB minPick 10 (emptyIdearium charTok 20)
      [.append ⟨"sys", "SYSTEM", true⟩, .insert 1 ⟨"hi", "HUMAN", false⟩, .pop 1]
      ⟨charTok, 20, [⟨"sys", "SYSTEM", true⟩], [[115, 121, 115]], {0}⟩ :=
    StepsB.cons trivial rfl h2
  have hP0 : Pinv (emptyIdearium charTok 20) := by
    intro j hj
    simp [emptyIdearium] at hj
  exact ⟨hsteps, hP0, c5_amended minPick minPick_mem 10 _ _ _ hsteps hP0⟩

/-- C4 counterexample: two fragments with distinct, present ids ("a" and "b")
and default (`None`) indices are merged — `None == None` satisfies the index
disjunct of the match — whereas the claim requires the incoming fragment to be
appended unchanged when the ids differ and are present. -/
theorem c4_counterexample :
    (⟨⟨"fA", "x"⟩, "a", none⟩ : ToolCall).id ≠ "" ∧
    (⟨⟨"fB", "y"⟩, "b", none⟩ : ToolCall).id ≠ "" ∧
    (⟨⟨"fA", "x"⟩, "a", none⟩ : ToolCall).id ≠ (⟨⟨"fB", "y"⟩, "b", none⟩ : ToolCall).id ∧
    (ToolCalls.concat ⟨[⟨⟨"fA", "x"⟩, "a", none⟩]⟩ ⟨[⟨⟨"fB", "y"⟩, "b", none⟩]⟩).list =
      [⟨⟨"fAfB", "xy"⟩, "a", none⟩] := by
  refine ⟨by decide, by decide, by decide, by decide⟩

/-- The code's per-fragment merge step coincides with the amended spec step:
match on id equality *or* index equality (unconditionally), combine into every
matching accumulated fragment, append unchanged when nothing matches. -/
theorem mergeStep_eq_specMergeInto (acc : List ToolCall) (u : ToolCall) :
    mergeStep acc u = specMergeInto acc u := by
  have hmatch : ∀ v : ToolCall, tcMatch v u = true ↔ specMatches v u := by
    intro v
    unfold tcMatch specMatches
    rw [Bool.or_eq_true, beq_iff_eq, beq_iff_eq]
  have hcomb : ∀ v : ToolCall, v.concat u = specCombine v u := by
    intro v
    unfold ToolCall.concat specCombine
    by_cases hid : v.id = ""
    · simp [hid]
    · simp [hid]
  unfold mergeStep specMergeInto
  by_cases h : ∀ v ∈ acc, ¬ specMatches v u
  · have hnone : (acc.any (fun v => tcMatch v u)) = false := by
      rw [List.any_eq_false]
      intro v hv hm
      exact h v hv ((hmatch v).mp hm)
    rw [if_pos h]
    simp [hnone]
  · have hsome : (acc.any (fun v => tcMatch v u)) = true := by
      push_neg at h
      rcases h with ⟨v, hv, hm⟩
      exact List.any_eq_true.mpr ⟨v, hv, (hmatch v).mpr hm⟩
    rw [if_neg h]
    simp only [hsome, if_true]
    apply List.map_congr_left
    intro v _
    by_cases hm : specMatches v u
    · rw [if_pos ((hmatch v).mpr hm), if_pos hm, hcomb]
    · rw [if_neg (fun hb => hm ((hmatch v).mp hb)), if_neg hm]

/-- The accumulated list never shrinks during a merge step. -/
theorem foldl_mergeStep_length : ∀ (bs acc : List ToolCall),
    acc.length ≤ (bs.foldl mergeStep acc).length := by
  intro bs
  induction bs with
  | nil => intro acc; exact le_refl _
  | cons b rest ih =>
    intro acc
    calc acc.length ≤ (mergeStep acc b).length := by
          unfold mergeStep
          by_cases h : acc.any (fun v => tcMatch v b) = true
          · rw [if_pos h, List.length_map]
          · rw [if_neg h]
            simp
        _ ≤ _ := ih (mergeStep acc b)

/-- C4 amended.  `ToolCalls.concat` processes each incoming fragment of `b` in
order; a fragment is combined into an accumulated fragment exactly when that
fragment's id equals the incoming id *or* its index equals the incoming index
(the index disjunct is not restricted to absent ids, and every matching
accumulated fragment is combined, not just the first); the combined fragment's
name and arguments are old+new concatenations and its id is the old id if
present, else the new; a fragment with no match is appended unchanged, and the
accumulated prefix is never removed or reordered (the result never shrinks). -/
theorem c4_amended :
    (∀ a b : ToolCalls, (a.concat b).list = specMerge a.list b.list) ∧
    (∀ a b : ToolCalls, a.list.length ≤ (a.concat b).list.length) := by
  constructor
  · intro a b
    unfold ToolCalls.concat specMerge
    have hfun : mergeStep = specMergeInto :=
      funext (fun acc => funext (fun u => mergeStep_eq_specMergeInto acc u))
    rw [hfun]
  · intro a b
    exact foldl_mergeStep_length b.list a.list

/-- C10 counterexample: a ToolCall constructed with an explicit *empty-string*
id keeps it — the before-validator only substitutes a UUID for `None` — so a
constructed fragment's id, while never absent, can be empty even though the
drawn UUID string is nonempty. -/
theorem c10_counterexample :
    (mkToolCall ⟨"f", ""⟩ (some (some "")) none "c0ffee42-0000-4000-8000-000000000000").id
      = "" ∧
    ("c0ffee42-0000-4000-8000-000000000000" : String) ≠ "" := by
  exact ⟨rfl, by decide⟩

/-- C10 amended.  Every constructed ToolCall carries a (never absent) string
id: a missing field or an explicit null is replaced by the freshly drawn UUID
at construction, and the resulting id is empty only when the caller passed the
empty string itself. -/
theorem c10_amended (f : ToolCallFunction) (idField : Option (Option String))
    (index : Option Int) (freshUUID : String) (hu : freshUUID ≠ "") :
    ((idField = none ∨ idField = some none) →
      (mkToolCall f idField index freshUUID).id = freshUUID) ∧
    ((mkToolCall f idField index freshUUID).id = "" ↔ idField = some (some "")) := by
  constructor
  · rintro (rfl | rfl) <;> rfl
  · rcases idField with _ | idInner
    · simpa [mkToolCall] using hu
    · rcases idInner with _ | sId
      · simpa [mkToolCall] using hu
      · constructor
        · intro h
          simp only [mkToolCall] at h
          rw [h]
        · intro h
          simp only [Option.some.injEq] at h
          simp [mkToolCall, h]

/-- Witness for C10's amended theorem: a null id is replaced by the drawn
UUID, which is nonempty. -/
theorem c10_amended_witness :
    ("u-2" : String) ≠ "" ∧
    (mkToolCall ⟨"", ""⟩ (some none) none "u-2").id = "u-2" ∧
    (mkToolCall ⟨"", ""⟩ (some none) none "u-2").id ≠ "" := by
  have h := c10_amended ⟨"", ""⟩ (some none) none "u-2" (by decide)
  refine ⟨by decide, h.1 (Or.inr rfl), fun he => by simpa using h.2.mp he⟩

/-- C8: the id-validation loop of `_process_tool_calls` pops from the list it
is enumerating, so of two consecutive invalid fragments the second survives:
on `[x_1, x_2, call_3]` the loop returns `[x_2, call_3]`, keeping the invalid
`x_2` (which is then executed with the valid fragments), where the spec
requires every invalid fragment to be dropped.  A lone invalid fragment is
dropped and the turn yields no tool response (`none`) rather than aborting. -/
theorem c8_enumerate_pop_bug :
    pyStartsWith "x_1" "call_" = false ∧
    pyStartsWith "x_2" "call_" = false ∧
    pyStartsWith "call_3" "call_" = true ∧
    validateLoop [⟨⟨"f", "1"⟩, "x_1", none⟩, ⟨⟨"f", "2"⟩, "x_2", none⟩,
        ⟨⟨"f", "3"⟩, "call_3", none⟩] 0 =
      [⟨⟨"f", "2"⟩, "x_2", none⟩, ⟨⟨"f", "3"⟩, "call_3", none⟩] ∧
    processToolCallsFilter ⟨[⟨⟨"f", "1"⟩, "x_1", none⟩]⟩ = none := by
  refine ⟨by decide, by decide, by decide, by decide, by decide⟩

/-- C9.  Tool resolution is total and recovers locally: `_use_tools` produces
exactly one outcome per Call (no exception escapes — the lone raise site,
`json.loads`, is wrapped in `contextlib.suppress`); a Call whose function name
matches no registered tool yields the synthesized "Tool not found" error
response carrying the Call's id; and a Call whose arguments fail to parse as
JSON invokes its tool with the empty argument set. -/
theorem c9_tool_recovery (parse : String → Option (List (String × String)))
    (tools : List AgentTool) (tcs : ToolCalls) :
    (useTools parse tools tcs).length = tcs.list.length ∧
    (∀ tc ∈ tcs.list, findTool tools tc.function.name = none →
      ToolOutcome.notFound tc.id ∈ useTools parse tools tcs) ∧
    (∀ tc ∈ tcs.list, ∀ t : AgentTool, findTool tools tc.function.name = some t →
      parse tc.function.arguments = none →
      ToolOutcome.response tc.id tc.function.name (t.impl []) ∈
        useTools parse tools tcs) := by
  refine ⟨by simp [useTools], ?_, ?_⟩
  · intro tc hmem hnone
    refine List.mem_map.mpr ⟨tc, hmem, ?_⟩
    rw [hnone]
  · intro tc hmem t hsome hparse
    refine List.mem_map.mpr ⟨tc, hmem, ?_⟩
    rw [hsome]
    dsimp only
    rw [hparse]
    rfl

/-- Witness for C9 at concrete inputs: a registry with one tool "f", a parser
that always fails, and two Calls — one for "f" (parse failure, empty
arguments) and one for the unregistered "g" (synthesized error response). -/
theorem c9_tool_recovery_witness :
    (useTools (fun _ => none) [⟨"f", fun _ => "ok"⟩]
        ⟨[⟨⟨"f", "not json"⟩, "call_1", none⟩, ⟨⟨"g", ""⟩, "call_2", none⟩]⟩).length = 2 ∧
    ToolOutcome.notFound "call_2" ∈ useTools (fun _ => none) [⟨"f", fun _ => "ok"⟩]
      ⟨[⟨⟨"f", "not json"⟩, "call_1", none⟩, ⟨⟨"g", ""⟩, "call_2", none⟩]⟩ ∧
    ToolOutcome.response "call_1" "f" "ok" ∈ useTools (fun _ => none) [⟨"f", fun _ => "ok"⟩]
      ⟨[⟨⟨"f", "not json"⟩, "call_1", none⟩, ⟨⟨"g", ""⟩, "call_2", none⟩]⟩ := by
  have h := c9_tool_recovery (fun _ => none) [⟨"f", fun _ => "ok"⟩]
    ⟨[⟨⟨"f", "not json"⟩, "call_1", none⟩, ⟨⟨"g", ""⟩, "call_2", none⟩]⟩
  refine ⟨h.1, ?_, ?_⟩
  · exact h.2.1 ⟨⟨"g", ""⟩, "call_2", none⟩ (by simp) rfl
  · exact h.2.2 ⟨⟨"f", "not json"⟩, "call_1", none⟩ (by simp)
      ⟨"f", fun _ => "ok"⟩ rfl rfl

/-- The sum of the lengths of a list of token sequences, re-indexed over
`Finset.range`. -/
theorem sum_map_length_eq_range_sum : ∀ (l : List (List Nat)),
    (l.map List.length).sum =
      (Finset.range l.length).sum (fun j => (l.getD j []).length) := by
  intro l
  induction l with
  | nil => simp
  | cons t rest ih =>
    rw [List.map_cons, List.sum_cons, ih, List.length_cons,
      Finset.sum_range_succ']
    simp [Nat.add_comm]

/-- Setting one position of a Nat list adjusts the sum by the exchanged
element (subtraction-free form). -/
theorem sum_set_exchange : ∀ (l : List Nat) (i a : Nat), i < l.length →
    (l.set i a).sum + l.getD i 0 = l.sum + a := by
  intro l
  induction l with
  | nil => intro i a h; simp at h
  | cons x rest ih =>
    intro i a h
    cases i with
    | zero => simp [Nat.add_comm, Nat.add_left_comm]
    | succ j =>
      rw [List.set_cons_succ, List.sum_cons, List.sum_cons, List.getD_cons_succ]
      have := ih j a (by simpa using h)
      omega

/-- The Buffer total splits into the persistent part and the non-persistent
part. -/
theorem totalTokens_split (i : Idearium)
    (hlen : i.tokenizedNotions.length = i.notions.length)
    (hbound : ∀ j ∈ i.persistentIndices, j < i.notions.length) :
    i.totalTokens = presTokens i +
      i.nonPersistentIndices.sum (fun j => (i.tokenizedNotions.getD j []).length) := by
  have hsub : i.persistentIndices ⊆ Finset.range i.notions.length := by
    intro j hj
    exact Finset.mem_range.mpr (hbound j hj)
  have hsplit : ((Finset.range i.notions.length \ i.persistentIndices).sum
      (fun j => (i.tokenizedNotions.getD j []).length)) +
      i.persistentIndices.sum (fun j => (i.tokenizedNotions.getD j []).length) =
      (Finset.range i.notions.length).sum
        (fun j => (i.tokenizedNotions.getD j []).length) :=
    Finset.sum_sdiff hsub
  rw [Idearium.totalTokens, sum_map_length_eq_range_sum, hlen, ← hsplit]
  rw [Idearium.nonPersistentIndices, presTokens]
  omega

/-- With exactly one non-persistent index, the total is the persistent part
plus that entry's token count. -/
theorem totalTokens_single (i : Idearium) (idx : Nat)
    (hlen : i.tokenizedNotions.length = i.notions.length)
    (hbound : ∀ j ∈ i.persistentIndices, j < i.notions.length)
    (hnp : i.nonPersistentIndices = {idx}) :
    i.totalTokens = presTokens i + (i.tokenizedNotions.getD idx []).length := by
  rw [totalTokens_split i hlen hbound, hnp, Finset.sum_singleton]

/-- Evicting a non-persistent index leaves the persistent token count
unchanged: the recorded indices shift down in step with the list. -/
theorem popRaw_presTokens (i : Idearium) (idx : Nat)
    (hidx : idx ∈ i.nonPersistentIndices) :
    presTokens (i.popRaw idx) = presTokens i := by
  have hnotP : idx ∉ i.persistentIndices := (Finset.mem_sdiff.mp hidx).2
  unfold presTokens Idearium.popRaw
  dsimp only
  rw [Finset.erase_eq_of_not_mem hnotP]
  rw [Finset.sum_image]
  · apply Finset.sum_congr rfl
    intro j hj
    have hji : j ≠ idx := fun hEq => hnotP (hEq ▸ hj)
    by_cases hlt : idx < j
    · rw [if_pos hlt, List.getD_eq_getElem?_getD,
        List.getElem?_eraseIdx_of_ge _ _ _ (by omega)]
      have hjj : j - 1 + 1 = j := by omega
      rw [hjj, ← List.getD_eq_getElem?_getD]
    · rw [if_neg hlt, List.getD_eq_getElem?_getD,
        List.getElem?_eraseIdx_of_lt _ _ _ (by omega),
        ← List.getD_eq_getElem?_getD]
  · intro a haP b hbP hab
    have ha' : a ≠ idx := fun hEq => hnotP (hEq ▸ haP)
    have hb' : b ≠ idx := fun hEq => hnotP (hEq ▸ hbP)
    split_ifs at hab <;> omega

/-- Evicting a non-persistent index preserves the trim well-formedness
hypotheses. -/
theorem popRaw_trimHyps (i : Idearium) (idx : Nat)
    (hT : TrimHyps i) (hidx : idx ∈ i.nonPersistentIndices) :
    TrimHyps (i.popRaw idx) := by
  obtain ⟨hlen, hbound, hflag, hfaith, hpres⟩ := hT
  have hnotP : idx ∉ i.persistentIndices := (Finset.mem_sdiff.mp hidx).2
  have hidxlt : idx < i.notions.length :=
    Finset.mem_range.mp (Finset.mem_sdiff.mp hidx).1
  have hlenN := List.length_eraseIdx i.notions idx
  have hlenT := List.length_eraseIdx i.tokenizedNotions idx
  refine ⟨?_, ?_, ?_, ?_, ?_⟩
  · simp only [Idearium.popRaw]
    rw [hlenT, hlenN, hlen]
  · intro j hj
    simp only [Idearium.popRaw] at hj ⊢
    rcases Finset.mem_image.mp hj with ⟨k, hk, hshift⟩
    have hk' := Finset.mem_erase.mp hk
    have hklt := hbound k hk'.2
    have hkne : k ≠ idx := hk'.1
    rw [hlenN, if_pos hidxlt]
    split_ifs at hshift <;> omega
  · intro j hj
    simp only [Idearium.popRaw] at hj ⊢
    rw [hlenN, if_pos hidxlt] at hj
    constructor
    · intro hmem
      rcases Finset.mem_image.mp hmem with ⟨k, hk, hshift⟩
      have hk' := Finset.mem_erase.mp hk
      have hklt := hbound k hk'.2
      have hkflag := (hflag k hklt).mp hk'.2
      by_cases hlt : idx < k
      · rw [if_pos hlt] at hshift
        subst hshift
        rw [List.getD_eq_getElem?_getD, List.getElem?_eraseIdx_of_ge _ _ _ (by omega)]
        have hkk : k - 1 + 1 = k := by omega
        rw [hkk, ← List.getD_eq_getElem?_getD]
        exact hkflag
      · rw [if_neg hlt] at hshift
        subst hshift
        rw [List.getD_eq_getElem?_getD, List.getElem?_eraseIdx_of_lt _ _ _ (by omega),
          ← List.getD_eq_getElem?_getD]
        exact hkflag
    · intro hflagj
      by_cases hlt : j < idx
      · have hjlt : j < i.notions.length := by omega
        rw [List.getD_eq_getElem?_getD, List.getElem?_eraseIdx_of_lt _ _ _ hlt,
          ← List.getD_eq_getElem?_getD] at hflagj
        have hjP := (hflag j hjlt).mpr hflagj
        refine Finset.mem_image.mpr ⟨j, Finset.mem_erase.mpr ⟨by omega, hjP⟩, ?_⟩
        rw [if_neg (by omega)]
      · have hjlt : j + 1 < i.notions.length := by omega
        rw [List.getD_eq_getElem?_getD, List.getElem?_eraseIdx_of_ge _ _ _ (by omega),
          ← List.getD_eq_getElem?_getD] at hflagj
        have hjP := (hflag (j + 1) hjlt).mpr hflagj
        refine Finset.mem_image.mpr ⟨j + 1, Finset.mem_erase.mpr ⟨by omega, hjP⟩, ?_⟩
        rw [if_pos (by omega)]
        omega
  · intro tn htn k hk
    simp only [Idearium.popRaw] at htn
    exact hfaith tn ((i.tokenizedNotions.eraseIdx_sublist idx).subset htn) k hk
  · have := popRaw_presTokens i idx hidx
    rw [this]
    exact hpres

/-- Numeric facts at a truncation step: with exactly one non-persistent index
and the budget exceeded, the prefix length equals `max_tokens` minus the
persistent token count, which is a proper prefix of that entry's sequence. -/
theorem trunc_facts (i : Idearium) (idx : Nat) (hT : TrimHyps i)
    (hb : i.maxTokens < i.totalTokens) (hnp : i.nonPersistentIndices = {idx}) :
    idx ∉ i.persistentIndices ∧ idx < i.notions.length ∧
    i.totalTokens = presTokens i + (i.tokenizedNotions.getD idx []).length ∧
    i.maxTokens - (i.totalTokens - (i.tokenizedNotions.getD idx []).length) =
      i.maxTokens - presTokens i ∧
    i.maxTokens - presTokens i < (i.tokenizedNotions.getD idx []).length := by
  obtain ⟨hlen, hbound, hflag, hfaith, hpres⟩ := hT
  have hmem : idx ∈ i.nonPersistentIndices := by rw [hnp]; exact Finset.mem_singleton_self idx
  have hnotP : idx ∉ i.persistentIndices := (Finset.mem_sdiff.mp hmem).2
  have hlt : idx < i.notions.length := Finset.mem_range.mp (Finset.mem_sdiff.mp hmem).1
  have htot := totalTokens_single i idx hlen hbound hnp
  exact ⟨hnotP, hlt, htot, by omega, by omega⟩

/-- At a truncation step, the state the code's `replace` builds — content the
decoded prefix, cache the re-encoded decoded prefix — *is* the spec's
truncation result, and its total saturates the budget. -/
theorem trunc_state (i : Idearium) (idx : Nat) (hT : TrimHyps i)
    (hb : i.maxTokens < i.totalTokens) (hnp : i.nonPersistentIndices = {idx}) :
    i.replaceRaw idx
      { content := i.tokenizer.decode (pyTake (i.tokenizedNotions.getD idx [])
          ((i.maxTokens : Int) - ((i.totalTokens : Int) -
            ((i.tokenizedNotions.getD idx []).length : Int))))
        role := (i.notions.getD idx default).role
        persistent := (i.notions.getD idx default).persistent } =
      truncResult i idx ∧
    (truncResult i idx).totalTokens = i.maxTokens := by
  obtain ⟨hnotP, hlt, htot, hkeep, hklt⟩ := trunc_facts i idx hT hb hnp
  obtain ⟨hlen, hbound, hflag, hfaith, hpres⟩ := hT
  have hltT : idx < i.tokenizedNotions.length := by omega
  have hpfx : pyTake (i.tokenizedNotions.getD idx [])
      ((i.maxTokens : Int) - ((i.totalTokens : Int) -
        ((i.tokenizedNotions.getD idx []).length : Int))) =
      (i.tokenizedNotions.getD idx []).take
        (i.maxTokens - (i.totalTokens - (i.tokenizedNotions.getD idx []).length)) := by
    have hcast : ((i.maxTokens : Int) - ((i.totalTokens : Int) -
        ((i.tokenizedNotions.getD idx []).length : Int))) =
        ((i.maxTokens - (i.totalTokens - (i.tokenizedNotions.getD idx []).length) : Nat) : Int) := by
      omega
    rw [hcast, pyTake, if_pos (Int.natCast_nonneg _)]
    rw [Int.toNat_natCast]
  have hmemtn : i.tokenizedNotions.getD idx [] ∈ i.tokenizedNotions := by
    rw [List.getD_eq_getElem?_getD, List.getElem?_eq_getElem hltT]
    exact List.getElem_mem hltT
  have henc : i.tokenizer.encode (i.tokenizer.decode
      ((i.tokenizedNotions.getD idx []).take
        (i.maxTokens - (i.totalTokens - (i.tokenizedNotions.getD idx []).length)))) =
      (i.tokenizedNotions.getD idx []).take
        (i.maxTokens - (i.totalTokens - (i.tokenizedNotions.getD idx []).length)) := by
    refine hfaith _ hmemtn _ ?_
    omega
  have hflagidx : ¬ (i.notions.getD idx default).persistent = true := by
    intro hp
    exact hnotP ((hflag idx hlt).mpr hp)
  constructor
  · rw [Idearium.replaceRaw, truncResult]
    dsimp only
    rw [hpfx, henc, if_neg hflagidx, Finset.erase_eq_of_not_mem hnotP]
  · rw [truncResult]
    show ((i.tokenizedNotions.set idx ((i.tokenizedNotions.getD idx []).take
      (i.maxTokens - (i.totalTokens - (i.tokenizedNotions.getD idx []).length)))).map
        List.length).sum = i.maxTokens
    have hsum := sum_set_exchange (i.tokenizedNotions.map List.length) idx
      ((i.tokenizedNotions.getD idx []).take
        (i.maxTokens - (i.totalTokens - (i.tokenizedNotions.getD idx []).length))).length
      (by rw [List.length_map]; omega)
    rw [← List.map_set] at hsum
    have hgd : (i.tokenizedNotions.map List.length).getD idx 0 =
        (i.tokenizedNotions.getD idx []).length := by
      rw [List.getD_eq_getElem?_getD, List.getD_eq_getElem?_getD,
        List.getElem?_map, List.getElem?_eq_getElem hltT]
      rfl
    rw [hgd] at hsum
    have hlentake : ((i.tokenizedNotions.getD idx []).take
        (i.maxTokens - (i.totalTokens - (i.tokenizedNotions.getD idx []).length))).length =
        i.maxTokens - presTokens i := by
      rw [List.length_take]
      omega
    rw [hlentake] at hsum
    rw [Idearium.totalTokens] at htot hb
    omega

/-- Every normal or error outcome of the code's `_trim` is an outcome of the
reference trim driven by the same index choice, at the same fuel — for every
choice function respecting set membership, which is all Python guarantees for
`next(iter(...))`. -/
theorem trim_imp_specTrim (pick : Finset Nat → Nat)
    (hpick : ∀ s : Finset Nat, s.Nonempty → pick s ∈ s) :
    ∀ (fuel : Nat) (i : Idearium) (r : Except String Idearium),
    TrimHyps i → Idearium.trim pick fuel i = some r → specTrim pick fuel i = some r := by
  intro fuel
  induction fuel with
  | zero => intro i r hT h; simp [Idearium.trim] at h
  | succ m ih =>
    intro i r hT h
    rw [Idearium.trim] at h
    rw [specTrim]
    by_cases hb : i.maxTokens < i.totalTokens
    · rw [if_pos hb] at h
      rw [if_neg (by omega)]
      by_cases h1 : i.nonPersistentIndices.card = 1
      · rw [dif_pos h1] at h
        rw [dif_pos h1]
        obtain ⟨a, hnp⟩ := Finset.card_eq_one.mp h1
        have hpk : pick i.nonPersistentIndices = a :=
          Finset.mem_singleton.mp (by
            rw [← hnp]
            exact hpick _ (Finset.card_pos.mp (by rw [h1]; exact Nat.one_pos)))
        have hmin : ∀ (H : i.nonPersistentIndices.Nonempty),
            i.nonPersistentIndices.min' H = a := by
          intro H
          simp [hnp]
        simp only [hpk] at h
        simp only [hmin]
        obtain ⟨hstate, htotal⟩ := trunc_state i a hT hb hnp
        rw [hstate] at h
        rcases m with _ | m'
        · simp [Idearium.trim] at h
        · have hmax : Idearium.maxTokens (truncResult i a) = i.maxTokens := rfl
          rw [Idearium.trim, if_neg (by rw [hmax, htotal]; exact lt_irrefl _)] at h
          exact h
      · rw [dif_neg h1] at h
        rw [dif_neg h1]
        by_cases h2 : i.nonPersistentIndices = ∅
        · rw [dif_pos h2] at h
          rw [dif_pos h2]
          exact h
        · rw [dif_neg h2] at h
          rw [dif_neg h2]
          exact ih _ _ (popRaw_trimHyps i _ hT
            (hpick _ (Finset.nonempty_iff_ne_empty.mpr h2))) h
    · rw [if_neg hb] at h
      rw [if_pos (by omega)]
      exact h

/-- Every outcome of the reference trim driven by an index choice is an
outcome of the code's `_trim` under the same choice, with one extra unit of
fuel (the code re-checks the budget after the truncating `replace`). -/
theorem specTrim_imp_trim (pick : Finset Nat → Nat)
    (hpick : ∀ s : Finset Nat, s.Nonempty → pick s ∈ s) :
    ∀ (fuel : Nat) (i : Idearium) (r : Except String Idearium),
    TrimHyps i → specTrim pick fuel i = some r →
    Idearium.trim pick (fuel + 1) i = some r := by
  intro fuel
  induction fuel with
  | zero => intro i r hT h; simp [specTrim] at h
  | succ m ih =>
    intro i r hT h
    rw [specTrim] at h
    rw [Idearium.trim]
    by_cases hb : i.maxTokens < i.totalTokens
    · rw [if_neg (by omega)] at h
      rw [if_pos hb]
      by_cases h1 : i.nonPersistentIndices.card = 1
      · rw [dif_pos h1] at h
        rw [dif_pos h1]
        obtain ⟨a, hnp⟩ := Finset.card_eq_one.mp h1
        have hpk : pick i.nonPersistentIndices = a :=
          Finset.mem_singleton.mp (by
            rw [← hnp]
            exact hpick _ (Finset.card_pos.mp (by rw [h1]; exact Nat.one_pos)))
        have hmin : ∀ (H : i.nonPersistentIndices.Nonempty),
            i.nonPersistentIndices.min' H = a := by
          intro H
          simp [hnp]
        simp only [hmin] at h
        simp only [hpk]
        obtain ⟨hstate, htotal⟩ := trunc_state i a hT hb hnp
        rw [hstate]
        have hmax : Idearium.maxTokens (truncResult i a) = i.maxTokens := rfl
        rw [Idearium.trim, if_neg (by rw [hmax, htotal]; exact lt_irrefl _)]
        exact h
      · rw [dif_neg h1] at h
        rw [dif_neg h1]
        by_cases h2 : i.nonPersistentIndices = ∅
        · rw [dif_pos h2] at h
          rw [dif_pos h2]
          exact h
        · rw [dif_neg h2] at h
          rw [dif_neg h2]
          exact ih _ _ (popRaw_trimHyps i _ hT
            (hpick _ (Finset.nonempty_iff_ne_empty.mpr h2))) h
    · rw [if_pos (by omega)] at h
      rw [if_neg hb]
      exact h

/-- C3 counterexample.  The eviction step does not evict the lowest-index
non-persistent Entry.  On `nineEntryState` — nine entries, the first seven
persistent, the budget exceeded — the non-persistent index set is
`set(range(9)) - {0, 1, 2, 3, 4, 5, 6}`, which CPython iterates as `[8, 7]`,
so the code's `next(iter(...))` yields `8` (modelled by `cpyPick98`, which
respects the membership contract on this set) and `_trim` evicts the *newest*
non-persistent Entry "ii"; the claim's lowest-first reference (`specTrim`
driven by `minPick`) instead evicts the oldest one "hh".  The two runs return
normally with different Buffers. -/
theorem c3_counterexample :
    Idearium.nonPersistentIndices nineEntryState = ({7, 8} : Finset Nat) ∧
    cpyPick98 ({7, 8} : Finset Nat) = 8 ∧
    8 ∈ ({7, 8} : Finset Nat) ∧
    okState (Idearium.trim cpyPick98 2 nineEntryState) =
      some ([⟨"a", "SYSTEM", true⟩, ⟨"b", "SYSTEM", true⟩, ⟨"c", "SYSTEM", true⟩,
             ⟨"d", "SYSTEM", true⟩, ⟨"e", "SYSTEM", true⟩, ⟨"f", "SYSTEM", true⟩,
             ⟨"g", "SYSTEM", true⟩, ⟨"hh", "HUMAN", false⟩],
            [[97], [98], [99], [100], [101], [102], [103], [104, 104]],
            ({0, 1, 2, 3, 4, 5, 6} : Finset Nat)) ∧
    okState (specTrim minPick 2 nineEntryState) =
      some ([⟨"a", "SYSTEM", true⟩, ⟨"b", "SYSTEM", true⟩, ⟨"c", "SYSTEM", true⟩,
             ⟨"d", "SYSTEM", true⟩, ⟨"e", "SYSTEM", true⟩, ⟨"f", "SYSTEM", true⟩,
             ⟨"g", "SYSTEM", true⟩, ⟨"ii", "AI", false⟩],
            [[97], [98], [99], [100], [101], [102], [103], [105, 105]],
            ({0, 1, 2, 3, 4, 5, 6} : Finset Nat)) ∧
    okNotions (Idearium.trim cpyPick98 2 nineEntryState) ≠
      okNotions (specTrim minPick 2 nineEntryState) := by
  refine ⟨by decide, by decide, by decide, by decide, by decide, by decide⟩

/-- C3 amended.  The trim loop follows the reference algorithm up to the
choice of the evicted index: the code takes it from the head of the
non-persistent set's iteration order, of which Python guarantees only
membership in the set — and which in CPython need not be the lowest index
(see `c3_counterexample`).  For every membership-respecting choice, the code's
`_trim` and the reference trim driven by the same choice produce identical
outcomes on well-formed Buffers, in both directions (the code needs one extra
fuel unit for the budget re-check of the truncating `replace`); the
prefix-truncation clause is choice-independent, since the singleton
non-persistent set forces the choice: in the claim's concrete instance —
`max_tokens = 5`, a single non-persistent Entry of 8 tokens — the trimmed
content decodes exactly tokens `[0:5]` of the original encoding under every
such choice. -/
theorem c3_amended :
    (∀ (pick : Finset Nat → Nat), (∀ s : Finset Nat, s.Nonempty → pick s ∈ s) →
      ∀ (fuel : Nat) (i : Idearium) (r : Except String Idearium),
        TrimHyps i → Idearium.trim pick fuel i = some r →
        specTrim pick fuel i = some r) ∧
    (∀ (pick : Finset Nat → Nat), (∀ s : Finset Nat, s.Nonempty → pick s ∈ s) →
      ∀ (fuel : Nat) (i : Idearium) (r : Except String Idearium),
        TrimHyps i → specTrim pick fuel i = some r →
        Idearium.trim pick (fuel + 1) i = some r) ∧
    (∀ (pick : Finset Nat → Nat), (∀ s : Finset Nat, s.Nonempty → pick s ∈ s) →
      Idearium.trim pick 2 ⟨charTok, 5, [⟨"12345678", "HUMAN", false⟩],
          [[49, 50, 51, 52, 53, 54, 55, 56]], ∅⟩ =
        some (.ok ⟨charTok, 5, [⟨"12345", "HUMAN", false⟩],
          [[49, 50, 51, 52, 53]], ∅⟩)) ∧
    "12345" = charTok.decode ((charTok.encode "12345678").take 5) := by
  refine ⟨trim_imp_specTrim, specTrim_imp_trim, ?_, by decide⟩
  intro pick hpick
  exact trim_single_oversized pick hpick charTok 5 0 ⟨"12345678", "HUMAN", false⟩
    [49, 50, 51, 52, 53, 54, 55, 56] (by decide) rfl (by decide)

/-- Witness for C3's amended theorem at concrete inputs: the well-formedness
hypotheses hold for a one-entry buffer of 8 tokens under budget 5; the code's
run under the lowest-index choice transports to the reference algorithm; and
the truncation clause holds at both the lowest-index choice and the observed
CPython choice. -/
theorem c3_amended_witness :
    TrimHyps ⟨charTok, 5, [⟨"12345678", "HUMAN", false⟩],
      [[49, 50, 51, 52, 53, 54, 55, 56]], ∅⟩ ∧
    Idearium.trim minPick 5 ⟨charTok, 5, [⟨"12345678", "HUMAN", false⟩],
        [[49, 50, 51, 52, 53, 54, 55, 56]], ∅⟩ =
      some (.ok ⟨charTok, 5, [⟨"12345", "HUMAN", false⟩], [[49, 50, 51, 52, 53]], ∅⟩) ∧
    specTrim minPick 5 ⟨charTok, 5, [⟨"12345678", "HUMAN", false⟩],
        [[49, 50, 51, 52, 53, 54, 55, 56]], ∅⟩ =
      some (.ok ⟨charTok, 5, [⟨"12345", "HUMAN", false⟩], [[49, 50, 51, 52, 53]], ∅⟩) ∧
    Idearium.trim cpyPick98 2 ⟨charTok, 5, [⟨"12345678", "HUMAN", false⟩],
        [[49, 50, 51, 52, 53, 54, 55, 56]], ∅⟩ =
      some (.ok ⟨charTok, 5, [⟨"12345", "HUMAN", false⟩], [[49, 50, 51, 52, 53]], ∅⟩) := by
  have hT : TrimHyps ⟨charTok, 5, [⟨"12345678", "HUMAN", false⟩],
      [[49, 50, 51, 52, 53, 54, 55, 56]], ∅⟩ := by
    unfold TrimHyps
    refine ⟨by decide, by decide, by decide, by decide, by decide⟩
  refine ⟨hT, rfl, ?_, ?_⟩
  · exact c3_amended.1 minPick minPick_mem 5 _ _ hT rfl
  · exact c3_amended.2.2.1 cpyPick98 cpyPick98_mem

/-- Python's `(x or y) or None` on optional ints picks the first truthy
operand, else `None`. -/
theorem idxOr_eq (x y : Option Int) : idxOr x y =
    if idxTruthy x = true then x else if idxTruthy y = true then y else none := by
  simp only [idxOr]
  by_cases hx : idxTruthy x = true
  · simp [hx]
  · simp [hx]

/-- The index combination of the merge is associative. -/
theorem idxOr_assoc (x y z : Option Int) :
    idxOr (idxOr x y) z = idxOr x (idxOr y z) := by
  rw [idxOr_eq x y, idxOr_eq y z]
  by_cases hx : idxTruthy x = true
  · rw [if_pos hx, idxOr_eq, idxOr_eq, if_pos hx, if_pos hx]
  · rw [if_neg hx]
    by_cases hy : idxTruthy y = true
    · rw [if_pos hy, idxOr_eq, idxOr_eq, if_pos hy, if_neg hx, if_pos hy]
    · rw [if_neg hy, idxOr_eq, idxOr_eq, if_neg hx]
      by_cases hz : idxTruthy z = true
      · rw [if_pos hz]
        have hn : idxTruthy (none : Option Int) = false := rfl
        simp [hn, hz, hy]
      · rw [if_neg hz]
        have hn : idxTruthy (none : Option Int) = false := rfl
        simp [hn, hz, hy]

/-- `ToolCall.concat` is associative (on fragments without extra fields). -/
theorem tcConcat_assoc (x y z : ToolCall) :
    (x.concat y).concat z = x.concat (y.concat z) := by
  unfold ToolCall.concat
  simp only [ToolCall.mk.injEq, ToolCallFunction.mk.injEq]
  refine ⟨⟨String.append_assoc _ _ _, String.append_assoc _ _ _⟩, ?_, idxOr_assoc _ _ _⟩
  by_cases hx : x.id = ""
  · simp [hx]
  · simp [hx]

/-- An anchored fragment has a nonempty id. -/
theorem anchored_id_ne (pool : List ToolCall) (hp : CoherentPool pool)
    (u : ToolCall) (hu : Anchored pool u) : u.id ≠ "" := by
  obtain ⟨w, hw, hid, _⟩ := hu
  rw [hid]
  exact hp.1 w hw

/-- An anchored fragment has a truthy index. -/
theorem anchored_idx_truthy (pool : List ToolCall) (hp : CoherentPool pool)
    (u : ToolCall) (hu : Anchored pool u) : idxTruthy u.index = true := by
  obtain ⟨w, hw, _, hidx⟩ := hu
  rw [hidx]
  exact hp.2.1 w hw

/-- Between anchored fragments the merge's match test is exactly id
equality: a spurious index-only match would contradict pool coherence. -/
theorem tcMatch_iff (pool : List ToolCall) (hp : CoherentPool pool)
    (v u : ToolCall) (hv : Anchored pool v) (hu : Anchored pool u) :
    (tcMatch v u = true ↔ v.id = u.id) := by
  obtain ⟨w, hw, hvid, hvidx⟩ := hv
  obtain ⟨w', hw', huid, huidx⟩ := hu
  constructor
  · intro hm
    unfold tcMatch at hm
    have hm' : v.id = u.id ∨ v.index = u.index := by simpa using hm
    rcases hm' with hid | hidx
    · exact hid
    · have : w.index = w'.index := by rw [← hvidx, ← huidx, hidx]
      have hwid : w.id = w'.id := (hp.2.2 w hw w' hw').mpr this
      rw [hvid, huid, hwid]
  · intro hid
    unfold tcMatch
    simp [hid]

/-- Combining two anchored fragments with equal ids keeps the first's id and
index, and stays anchored. -/
theorem anchored_concat (pool : List ToolCall) (hp : CoherentPool pool)
    (u v : ToolCall) (hu : Anchored pool u) (hv : Anchored pool v)
    (hid : u.id = v.id) :
    (u.concat v).id = u.id ∧ (u.concat v).index = u.index ∧
      Anchored pool (u.concat v) := by
  have hne := anchored_id_ne pool hp u hu
  have htr := anchored_idx_truthy pool hp u hu
  have h1 : (u.concat v).id = u.id := by
    unfold ToolCall.concat
    simp [hne]
  have h2 : (u.concat v).index = u.index := by
    unfold ToolCall.concat
    dsimp only
    rw [idxOr_eq, if_pos htr]
  obtain ⟨w, hw, hwid, hwidx⟩ := hu
  exact ⟨h1, h2, w, hw, by rw [h1, hwid], by rw [h2, hwidx]⟩

/-- When the incoming fragment's id is present among anchored accumulated
fragments, the merge step combines it into exactly the same-id fragments. -/
theorem msMap (pool : List ToolCall) (hp : CoherentPool pool)
    (Z : List ToolCall) (u : ToolCall)
    (hZ : ∀ v ∈ Z, Anchored pool v) (hu : Anchored pool u)
    (hmem : u.id ∈ Z.map ToolCall.id) :
    mergeStep Z u = mapMerge u Z := by
  obtain ⟨v0, hv0, hv0id⟩ := List.mem_map.mp hmem
  unfold mergeStep mapMerge
  have hany : Z.any (fun v => tcMatch v u) = true :=
    List.any_eq_true.mpr ⟨v0, hv0,
      (tcMatch_iff pool hp v0 u (hZ v0 hv0) hu).mpr hv0id⟩
  rw [if_pos hany]
  apply List.map_congr_left
  intro v hv
  by_cases hid : v.id = u.id
  · rw [if_pos ((tcMatch_iff pool hp v u (hZ v hv) hu).mpr hid), if_pos hid]
  · rw [if_neg (fun hb => hid ((tcMatch_iff pool hp v u (hZ v hv) hu).mp hb)),
      if_neg hid]

/-- When the incoming fragment's id is absent, the merge step appends it. -/
theorem msAppend (pool : List ToolCall) (hp : CoherentPool pool)
    (Z : List ToolCall) (u : ToolCall)
    (hZ : ∀ v ∈ Z, Anchored pool v) (hu : Anchored pool u)
    (hmem : u.id ∉ Z.map ToolCall.id) :
    mergeStep Z u = Z ++ [u] := by
  unfold mergeStep
  have hany : Z.any (fun v => tcMatch v u) = false := by
    rw [List.any_eq_false]
    intro v hv hm
    exact hmem (List.mem_map.mpr ⟨v, hv,
      (tcMatch_iff pool hp v u (hZ v hv) hu).mp hm⟩)
  simp [hany]

/-- `mapMerge` with an id absent from the list is the identity. -/
theorem mapMerge_id_of_not_mem (Z : List ToolCall) (u : ToolCall)
    (hmem : u.id ∉ Z.map ToolCall.id) : mapMerge u Z = Z := by
  unfold mapMerge
  have hpt : ∀ v ∈ Z, (if v.id = u.id then v.concat u else v) = id v := by
    intro v hv
    rw [if_neg (fun h => hmem (List.mem_map.mpr ⟨v, hv, h⟩))]
    rfl
  rw [List.map_congr_left hpt, List.map_id]

/-- `mapMerge` on anchored fragments preserves the id sequence. -/
theorem mapMerge_ids (pool : List ToolCall) (hp : CoherentPool pool)
    (Z : List ToolCall) (u : ToolCall) (hZ : ∀ v ∈ Z, Anchored pool v) :
    (mapMerge u Z).map ToolCall.id = Z.map ToolCall.id := by
  unfold mapMerge
  rw [List.map_map]
  apply List.map_congr_left
  intro v hv
  simp only [Function.comp_apply]
  by_cases hid : v.id = u.id
  · rw [if_pos hid]
    unfold ToolCall.concat
    simp [anchored_id_ne pool hp v (hZ v hv)]
  · rw [if_neg hid]

/-- `mapMerge` preserves anchoredness of every element. -/
theorem mapMerge_anchored (pool : List ToolCall) (hp : CoherentPool pool)
    (Z : List ToolCall) (u : ToolCall)
    (hZ : ∀ v ∈ Z, Anchored pool v) (hu : Anchored pool u) :
    ∀ v ∈ mapMerge u Z, Anchored pool v := by
  intro v hv
  unfold mapMerge at hv
  obtain ⟨v0, hv0, hv0eq⟩ := List.mem_map.mp hv
  by_cases hid : v0.id = u.id
  · rw [if_pos hid] at hv0eq
    rw [← hv0eq]
    exact (anchored_concat pool hp v0 u (hZ v0 hv0) hu hid).2.2
  · rw [if_neg hid] at hv0eq
    rw [← hv0eq]
    exact hZ v0 hv0

/-- A merge step either keeps the id sequence or appends the incoming id. -/
theorem msIds (pool : List ToolCall) (hp : CoherentPool pool)
    (Z : List ToolCall) (u : ToolCall)
    (hZ : ∀ v ∈ Z, Anchored pool v) (hu : Anchored pool u) :
    (mergeStep Z u).map ToolCall.id = Z.map ToolCall.id ∨
    (mergeStep Z u).map ToolCall.id = Z.map ToolCall.id ++ [u.id] := by
  by_cases hmem : u.id ∈ Z.map ToolCall.id
  · left
    rw [msMap pool hp Z u hZ hu hmem]
    exact mapMerge_ids pool hp Z u hZ
  · right
    rw [msAppend pool hp Z u hZ hu hmem]
    simp

/-- A merge step preserves accumulator well-formedness. -/
theorem msGood (pool : List ToolCall) (hp : CoherentPool pool)
    (Z : List ToolCall) (u : ToolCall)
    (hZ : GoodAcc pool Z) (hu : Anchored pool u) :
    GoodAcc pool (mergeStep Z u) := by
  by_cases hmem : u.id ∈ Z.map ToolCall.id
  · rw [msMap pool hp Z u hZ.1 hu hmem]
    exact ⟨mapMerge_anchored pool hp Z u hZ.1 hu,
      by rw [mapMerge_ids pool hp Z u hZ.1]; exact hZ.2⟩
  · rw [msAppend pool hp Z u hZ.1 hu hmem]
    constructor
    · intro v hv
      rcases List.mem_append.mp hv with hv1 | hv2
      · exact hZ.1 v hv1
      · rw [List.mem_singleton.mp hv2]
        exact hu
    · rw [List.map_append]
      simp only [List.map_cons, List.map_nil]
      exact List.Nodup.append hZ.2 (List.nodup_singleton _)
        (by
          intro a ha hb
          rw [List.mem_singleton.mp hb] at ha
          exact hmem ha)

/-- Folding anchored fragments into a well-formed accumulator keeps it
well-formed. -/
theorem foldGood (pool : List ToolCall) (hp : CoherentPool pool) :
    ∀ (ws Z : List ToolCall), GoodAcc pool Z → (∀ w ∈ ws, Anchored pool w) →
    GoodAcc pool (ws.foldl mergeStep Z) := by
  intro ws
  induction ws with
  | nil => intro Z hZ _; exact hZ
  | cons w rest ih =>
    intro Z hZ hws
    exact ih (mergeStep Z w) (msGood pool hp Z w hZ (hws w (List.mem_cons_self w rest)))
      (fun x hx => hws x (List.mem_cons_of_mem w hx))

/-- Folding never removes an accumulated id. -/
theorem foldIds (pool : List ToolCall) (hp : CoherentPool pool) :
    ∀ (ws Z : List ToolCall), (∀ v ∈ Z, Anchored pool v) →
    (∀ w ∈ ws, Anchored pool w) → ∀ a, a ∈ Z.map ToolCall.id →
    a ∈ (ws.foldl mergeStep Z).map ToolCall.id := by
  intro ws
  induction ws with
  | nil => intro Z _ _ a ha; exact ha
  | cons w rest ih =>
    intro Z hZ hws a ha
    have hw : Anchored pool w := hws w (List.mem_cons_self w rest)
    have hZ' : ∀ v ∈ mergeStep Z w, Anchored pool v := by
      by_cases hmem : w.id ∈ Z.map ToolCall.id
      · rw [msMap pool hp Z w hZ hw hmem]
        exact mapMerge_anchored pool hp Z w hZ hw
      · rw [msAppend pool hp Z w hZ hw hmem]
        intro v hv
        rcases List.mem_append.mp hv with hv1 | hv2
        · exact hZ v hv1
        · rw [List.mem_singleton.mp hv2]
          exact hw
    refine ih (mergeStep Z w) hZ' (fun x hx => hws x (List.mem_cons_of_mem w hx)) a ?_
    rcases msIds pool hp Z w hZ hw with hsame | happ
    · rw [hsame]; exact ha
    · rw [happ]
      exact List.mem_append.mpr (Or.inl ha)

/-- Two `mapMerge`s at distinct ids commute. -/
theorem mapMerge_comm (pool : List ToolCall) (hp : CoherentPool pool)
    (Z : List ToolCall) (u w : ToolCall)
    (hZ : ∀ v ∈ Z, Anchored pool v) (hne : u.id ≠ w.id) :
    mapMerge w (mapMerge u Z) = mapMerge u (mapMerge w Z) := by
  unfold mapMerge
  rw [List.map_map, List.map_map]
  apply List.map_congr_left
  intro v hv
  simp only [Function.comp_apply]
  have hvne := anchored_id_ne pool hp v (hZ v hv)
  have hcu : (v.concat u).id = v.id := by unfold ToolCall.concat; simp [hvne]
  have hcw : (v.concat w).id = v.id := by unfold ToolCall.concat; simp [hvne]
  by_cases hvu : v.id = u.id
  · rw [if_pos hvu, if_neg (show ¬ v.id = w.id by rw [hvu]; exact hne),
      if_neg (show ¬ (v.concat u).id = w.id by rw [hcu, hvu]; exact hne),
      if_pos hvu]
  · by_cases hvw : v.id = w.id
    · rw [if_neg hvu, if_pos hvw,
        if_neg (show ¬ (v.concat w).id = u.id by rw [hcw]; exact hvu)]
    · rw [if_neg hvu, if_neg hvw, if_neg hvu]

/-- Merging `y` then `u` pointwise equals merging the combined `y.concat u`,
when `u` and `y` share an id. -/
theorem mapMerge_concat_split (pool : List ToolCall) (hp : CoherentPool pool)
    (Z : List ToolCall) (y u : ToolCall)
    (hZ : ∀ v ∈ Z, Anchored pool v) (hy : Anchored pool y)
    (hid : u.id = y.id) :
    mapMerge (y.concat u) Z = mapMerge u (mapMerge y Z) := by
  have hyid : (y.concat u).id = y.id := by
    unfold ToolCall.concat
    simp [anchored_id_ne pool hp y hy]
  unfold mapMerge
  rw [List.map_map]
  apply List.map_congr_left
  intro v hv
  simp only [Function.comp_apply]
  have hvne := anchored_id_ne pool hp v (hZ v hv)
  by_cases hvy : v.id = y.id
  · have hcy : (v.concat y).id = v.id := by unfold ToolCall.concat; simp [hvne]
    rw [if_pos (by rw [hyid]; exact hvy), if_pos hvy,
      if_pos (by rw [hcy, hvy, ← hid]), tcConcat_assoc]
  · rw [if_neg (by rw [hyid]; exact hvy), if_neg hvy,
      if_neg (by rw [hid]; exact hvy)]

/-- One merge step commutes with a pending `mapMerge` at a different id. -/
theorem m1step (pool : List ToolCall) (hp : CoherentPool pool)
    (Z : List ToolCall) (u w : ToolCall) (hZ : GoodAcc pool Z)
    (hu : Anchored pool u) (hw : Anchored pool w) (hne : w.id ≠ u.id) :
    mergeStep (mapMerge u Z) w = mapMerge u (mergeStep Z w) := by
  by_cases hmem : w.id ∈ Z.map ToolCall.id
  · have hmem' : w.id ∈ (mapMerge u Z).map ToolCall.id := by
      rw [mapMerge_ids pool hp Z u hZ.1]
      exact hmem
    rw [msMap pool hp (mapMerge u Z) w (mapMerge_anchored pool hp Z u hZ.1 hu) hw hmem',
      msMap pool hp Z w hZ.1 hw hmem,
      mapMerge_comm pool hp Z u w hZ.1 (fun h => hne h.symm)]
  · have hmem' : w.id ∉ (mapMerge u Z).map ToolCall.id := by
      rw [mapMerge_ids pool hp Z u hZ.1]
      exact hmem
    rw [msAppend pool hp (mapMerge u Z) w (mapMerge_anchored pool hp Z u hZ.1 hu) hw hmem',
      msAppend pool hp Z w hZ.1 hw hmem]
    unfold mapMerge
    rw [List.map_append]
    simp [hne]

/-- A fold of merge steps commutes with a pending `mapMerge` whose id does not
occur among the folded fragments. -/
theorem m1map (pool : List ToolCall) (hp : CoherentPool pool) :
    ∀ (ws Z : List ToolCall) (u : ToolCall), GoodAcc pool Z →
    (∀ w ∈ ws, Anchored pool w) → Anchored pool u →
    u.id ∉ ws.map ToolCall.id →
    ws.foldl mergeStep (mapMerge u Z) = mapMerge u (ws.foldl mergeStep Z) := by
  intro ws
  induction ws with
  | nil => intro Z u _ _ _ _; rfl
  | cons w rest ih =>
    intro Z u hZ hws hu hmem
    have hwanch : Anchored pool w := hws w (List.mem_cons_self w rest)
    have hne : w.id ≠ u.id := by
      intro hEq
      exact hmem (by rw [List.map_cons, ← hEq]; exact List.mem_cons_self _ _)
    rw [List.foldl_cons, List.foldl_cons,
      m1step pool hp Z u w hZ hu hwanch hne]
    exact ih (mergeStep Z w) u (msGood pool hp Z w hZ hwanch)
      (fun x hx => hws x (List.mem_cons_of_mem w hx)) hu
      (fun hmem2 => hmem (by rw [List.map_cons]; exact List.mem_cons_of_mem _ hmem2))

/-- After a merge step, the incoming fragment's id is present. -/
theorem msContains (pool : List ToolCall) (hp : CoherentPool pool)
    (Z : List ToolCall) (w : ToolCall)
    (hZ : ∀ v ∈ Z, Anchored pool v) (hw : Anchored pool w) :
    w.id ∈ (mergeStep Z w).map ToolCall.id := by
  by_cases hmem : w.id ∈ Z.map ToolCall.id
  · rw [msMap pool hp Z w hZ hw hmem, mapMerge_ids pool hp Z w hZ]
    exact hmem
  · rw [msAppend pool hp Z w hZ hw hmem, List.map_append]
    exact List.mem_append.mpr (Or.inr (by simp))

/-- The key exchange law: merging one more fragment into an accumulated fold
equals folding the fragment into the middle list first.  Requires anchored
fragments with duplicate-free ids in the middle list. -/
theorem l3_commute (pool : List ToolCall) (hp : CoherentPool pool) :
    ∀ (ys X : List ToolCall) (u : ToolCall), GoodAcc pool X →
    (∀ w ∈ ys, Anchored pool w) → (ys.map ToolCall.id).Nodup →
    Anchored pool u →
    mergeStep (ys.foldl mergeStep X) u = (mergeStep ys u).foldl mergeStep X := by
  intro ys
  induction ys with
  | nil =>
    intro X u hX hys hnd hu
    have h0 : mergeStep ([] : List ToolCall) u = [u] := by simp [mergeStep]
    rw [h0]
    rfl
  | cons y ys' ih =>
    intro X u hX hys hnd hu
    have hyanch : Anchored pool y := hys y (List.mem_cons_self y ys')
    have hys' : ∀ w ∈ ys', Anchored pool w :=
      fun x hx => hys x (List.mem_cons_of_mem y hx)
    rw [List.map_cons] at hnd
    have hynotin : y.id ∉ ys'.map ToolCall.id := (List.nodup_cons.mp hnd).1
    have hnd' : (ys'.map ToolCall.id).Nodup := (List.nodup_cons.mp hnd).2
    by_cases hcase : u.id = y.id
    · obtain ⟨hyuid, hyuidx, hyuanch⟩ :=
        anchored_concat pool hp y u hyanch hu hcase.symm
      have hmsys : mergeStep (y :: ys') u = (y.concat u) :: ys' := by
        have hany : (y :: ys').any (fun v => tcMatch v u) = true :=
          List.any_eq_true.mpr ⟨y, List.mem_cons_self y ys',
            (tcMatch_iff pool hp y u hyanch hu).mpr hcase.symm⟩
        unfold mergeStep
        rw [if_pos hany, List.map_cons,
          if_pos ((tcMatch_iff pool hp y u hyanch hu).mpr hcase.symm)]
        congr 1
        have hpt : ∀ v ∈ ys', (if tcMatch v u = true then v.concat u else v) = id v := by
          intro v hv
          rw [if_neg (fun hb => hynotin (by
            rw [← hcase, ← (tcMatch_iff pool hp v u (hys' v hv) hu).mp hb]
            exact List.mem_map.mpr ⟨v, hv, rfl⟩)), id]
        rw [List.map_congr_left hpt, List.map_id]
      rw [hmsys, List.foldl_cons, List.foldl_cons]
      have hX0 : GoodAcc pool (mergeStep X y) := msGood pool hp X y hX hyanch
      have hstep2 : mergeStep X (y.concat u) = mapMerge u (mergeStep X y) := by
        by_cases hmem : y.id ∈ X.map ToolCall.id
        · rw [msMap pool hp X (y.concat u) hX.1 hyuanch (by rw [hyuid]; exact hmem),
            msMap pool hp X y hX.1 hyanch hmem]
          exact mapMerge_concat_split pool hp X y u hX.1 hyanch hcase
        · rw [msAppend pool hp X (y.concat u) hX.1 hyuanch (by rw [hyuid]; exact hmem),
            msAppend pool hp X y hX.1 hyanch hmem]
          unfold mapMerge
          rw [List.map_append]
          have hXid : X.map (fun v => if v.id = u.id then v.concat u else v) = X := by
            have hpt : ∀ v ∈ X, (if v.id = u.id then v.concat u else v) = id v := by
              intro v hv
              rw [if_neg (fun hb => hmem (by
                rw [← hcase, ← hb]
                exact List.mem_map.mpr ⟨v, hv, rfl⟩)), id]
            rw [List.map_congr_left hpt, List.map_id]
          rw [hXid]
          simp [hcase.symm]
      rw [hstep2,
        m1map pool hp ys' (mergeStep X y) u hX0 hys' hu (by rw [hcase]; exact hynotin)]
      have hmemfold : u.id ∈ ((ys'.foldl mergeStep (mergeStep X y)).map ToolCall.id) := by
        rw [hcase]
        exact foldIds pool hp ys' (mergeStep X y) hX0.1 hys' y.id
          (msContains pool hp X y hX.1 hyanch)
      rw [msMap pool hp (ys'.foldl mergeStep (mergeStep X y)) u
        (foldGood pool hp ys' (mergeStep X y) hX0 hys').1 hu hmemfold]
    · by_cases hmem2 : u.id ∈ ys'.map ToolCall.id
      · have hmsys : mergeStep (y :: ys') u = y :: mergeStep ys' u := by
          obtain ⟨v0, hv0, hv0id⟩ := List.mem_map.mp hmem2
          have hanyys' : ys'.any (fun v => tcMatch v u) = true :=
            List.any_eq_true.mpr ⟨v0, hv0,
              (tcMatch_iff pool hp v0 u (hys' v0 hv0) hu).mpr hv0id⟩
          have hany : (y :: ys').any (fun v => tcMatch v u) = true :=
            List.any_eq_true.mpr ⟨v0, List.mem_cons_of_mem y hv0,
              (tcMatch_iff pool hp v0 u (hys' v0 hv0) hu).mpr hv0id⟩
          unfold mergeStep
          rw [if_pos hany, if_pos hanyys', List.map_cons,
            if_neg (fun hb => hcase
              ((tcMatch_iff pool hp y u hyanch hu).mp hb).symm)]
        rw [hmsys, List.foldl_cons, List.foldl_cons]
        exact ih (mergeStep X y) u (msGood pool hp X y hX hyanch) hys' hnd' hu
      · have hmsys : mergeStep (y :: ys') u = (y :: ys') ++ [u] := by
          refine msAppend pool hp (y :: ys') u hys hu ?_
          rw [List.map_cons]
          intro hmem3
          rcases List.mem_cons.mp hmem3 with h | h
          · exact hcase h
          · exact hmem2 h
        rw [hmsys, List.foldl_append]
        rfl

/-- Fold-level associativity of the merge under pool coherence. -/
theorem foldAssoc (pool : List ToolCall) (hp : CoherentPool pool) :
    ∀ (cs bs A : List ToolCall), GoodAcc pool A →
    (∀ w ∈ bs, Anchored pool w) → ((bs.map ToolCall.id).Nodup) →
    (∀ w ∈ cs, Anchored pool w) → ((cs.map ToolCall.id).Nodup) →
    cs.foldl mergeStep (bs.foldl mergeStep A) =
      (cs.foldl mergeStep bs).foldl mergeStep A := by
  intro cs
  induction cs with
  | nil => intro bs A _ _ _ _ _; rfl
  | cons c cs' ih =>
    intro bs A hA hbs hbnd hcs hcnd
    have hcanch : Anchored pool c := hcs c (List.mem_cons_self c cs')
    have hcs' : ∀ w ∈ cs', Anchored pool w :=
      fun x hx => hcs x (List.mem_cons_of_mem c hx)
    rw [List.map_cons] at hcnd
    have hcnd' : (cs'.map ToolCall.id).Nodup := (List.nodup_cons.mp hcnd).2
    rw [List.foldl_cons, List.foldl_cons,
      l3_commute pool hp bs A c hA hbs hbnd hcanch]
    have hbs' : ∀ w ∈ mergeStep bs c, Anchored pool w :=
      (msGood pool hp bs c ⟨hbs, hbnd⟩ hcanch).1
    have hbnd' : ((mergeStep bs c).map ToolCall.id).Nodup :=
      (msGood pool hp bs c ⟨hbs, hbnd⟩ hcanch).2
    exact ih (mergeStep bs c) A hA hbs' hbnd' hcs' hcnd'

/-- C7 counterexample: three Call-Sets whose fragments all carry fixed,
nonempty, per-call-distinct ids (stable across the stream), yet
`(A merge B) merge C ≠ A merge (B merge C)`: merging the two index-0
fragments of call "a" produces index `None` (Python `(0 or 0) or None`),
which then index-matches the unrelated call "q" on one association order
only. -/
theorem c7_counterexample :
    ("q" : String) ≠ "" ∧ ("a" : String) ≠ "" ∧ ("q" : String) ≠ "a" ∧
    (ToolCalls.concat
        (ToolCalls.concat ⟨[⟨⟨"w", ""⟩, "q", none⟩]⟩ ⟨[⟨⟨"y", ""⟩, "a", some 0⟩]⟩)
        ⟨[⟨⟨"z", ""⟩, "a", some 0⟩]⟩).list.length = 2 ∧
    (ToolCalls.concat ⟨[⟨⟨"w", ""⟩, "q", none⟩]⟩
        (ToolCalls.concat ⟨[⟨⟨"y", ""⟩, "a", some 0⟩]⟩
          ⟨[⟨⟨"z", ""⟩, "a", some 0⟩]⟩)).list.length = 1 ∧
    ToolCalls.concat
        (ToolCalls.concat ⟨[⟨⟨"w", ""⟩, "q", none⟩]⟩ ⟨[⟨⟨"y", ""⟩, "a", some 0⟩]⟩)
        ⟨[⟨⟨"z", ""⟩, "a", some 0⟩]⟩ ≠
      ToolCalls.concat ⟨[⟨⟨"w", ""⟩, "q", none⟩]⟩
        (ToolCalls.concat ⟨[⟨⟨"y", ""⟩, "a", some 0⟩]⟩
          ⟨[⟨⟨"z", ""⟩, "a", some 0⟩]⟩) := by
  refine ⟨by decide, by decide, by decide, by decide, by decide, by decide⟩

/-- C7 amended.  The Call-Set merge is associative for Call-Sets whose
fragment pool is coherent — every id nonempty, every index a truthy
(nonzero, non-`None`) integer, index equality coinciding with id equality
across the pool — with ids pairwise distinct inside each Call-Set. -/
theorem c7_amended (A B C : ToolCalls)
    (hp : CoherentPool (A.list ++ B.list ++ C.list))
    (hA : (A.list.map ToolCall.id).Nodup)
    (hB : (B.list.map ToolCall.id).Nodup)
    (hC : (C.list.map ToolCall.id).Nodup) :
    (A.concat B).concat C = A.concat (B.concat C) := by
  have hself : ∀ w ∈ A.list ++ B.list ++ C.list,
      Anchored (A.list ++ B.list ++ C.list) w :=
    fun w hw => ⟨w, hw, rfl, rfl⟩
  have hAanch : ∀ w ∈ A.list, Anchored (A.list ++ B.list ++ C.list) w :=
    fun w hw => hself w (by simp [hw])
  have hBanch : ∀ w ∈ B.list, Anchored (A.list ++ B.list ++ C.list) w :=
    fun w hw => hself w (by simp [hw])
  have hCanch : ∀ w ∈ C.list, Anchored (A.list ++ B.list ++ C.list) w :=
    fun w hw => hself w (by simp [hw])
  unfold ToolCalls.concat
  simp only [ToolCalls.mk.injEq]
  exact foldAssoc (A.list ++ B.list ++ C.list) hp C.list B.list A.list
    ⟨hAanch, hA⟩ hBanch hB hCanch hC

/-- Witness for C7's amended theorem at concrete Call-Sets: call "a" streams
over A and B with index 1, call "b" over B and C with index 2. -/
theorem c7_amended_witness :
    CoherentPool (ToolCalls.list ⟨[⟨⟨"f", "x"⟩, "a", some 1⟩]⟩ ++
      ToolCalls.list ⟨[⟨⟨"g", "y"⟩, "a", some 1⟩, ⟨⟨"h", "z"⟩, "b", some 2⟩]⟩ ++
      ToolCalls.list ⟨[⟨⟨"i", "w"⟩, "b", some 2⟩]⟩) ∧
    (ToolCalls.concat
        (ToolCalls.concat ⟨[⟨⟨"f", "x"⟩, "a", some 1⟩]⟩
          ⟨[⟨⟨"g", "y"⟩, "a", some 1⟩, ⟨⟨"h", "z"⟩, "b", some 2⟩]⟩)
        ⟨[⟨⟨"i", "w"⟩, "b", some 2⟩]⟩ =
      ToolCalls.concat ⟨[⟨⟨"f", "x"⟩, "a", some 1⟩]⟩
        (ToolCalls.concat ⟨[⟨⟨"g", "y"⟩, "a", some 1⟩, ⟨⟨"h", "z"⟩, "b", some 2⟩]⟩
          ⟨[⟨⟨"i", "w"⟩, "b", some 2⟩]⟩)) := by
  constructor
  · unfold CoherentPool
    refine ⟨by decide, by decide, by decide⟩
  · refine c7_amended ⟨[⟨⟨"f", "x"⟩, "a", some 1⟩]⟩
      ⟨[⟨⟨"g", "y"⟩, "a", some 1⟩, ⟨⟨"h", "z"⟩, "b", some 2⟩]⟩
      ⟨[⟨⟨"i", "w"⟩, "b", some 2⟩]⟩ ?_ (by decide) (by decide) (by decide)
    unfold CoherentPool
    refine ⟨by decide, by decide, by decide⟩

end SilverLingua
